import Mathlib

/-!
Verification of the kalibrate-rtl calibration helper (`kalibrate-rtl.py`)
against its design specification.

Python strings are modelled as `List Char`, Python `float` as `ℚ` (exact
arithmetic), fallible code as `Except Err`.  Files and the external tool's
stdout are modelled at the text level: a file is given by its list of lines
(each without the terminating newline), the tool's stdout as the raw decoded
character stream which the source splits on `'\n'`.
-/

/-! ## Python string primitives -/

/-- Characters stripped by Python `str.strip()` (ASCII whitespace). -/
def isWS (c : Char) : Bool := c.isWhitespace

/-- Python `s.strip()`. -/
def stripChars (s : List Char) : List Char :=
  ((s.dropWhile isWS).reverse.dropWhile isWS).reverse

/-- Python `s.rstrip(set)`: remove from the right every character contained
in `set`. -/
def rstripAny (set : List Char) (s : List Char) : List Char :=
  (s.reverse.dropWhile (fun c => decide (c ∈ set))).reverse

/-- Python `s.split(sep)` for a one-character separator: `''.split(c) = ['']`,
separators are not merged. -/
def splitOnChar (c : Char) : List Char → List (List Char)
  | [] => [[]]
  | x :: xs =>
    match splitOnChar c xs with
    | [] => [[]]
    | h :: t => if x = c then [] :: h :: t else (x :: h) :: t

/-! ## Numerals: the subset of Python `int()` / `float()` the program feeds
them, and the `%d` / `%f` / `%.2f` formatting used by `save`. -/

/-- Numeric value of a decimal digit character. -/
def digitVal (c : Char) : ℕ := c.toNat - '0'.toNat

/-- Value of a string of decimal digits (most significant first). -/
def digitsVal (s : List Char) : ℕ := s.foldl (fun a c => 10 * a + digitVal c) 0

def allDigits (s : List Char) : Bool := s.all (fun c => c.isDigit)

/-- Model of Python `int(s)`: optional surrounding whitespace, optional sign,
then a nonempty digit string. -/
def parseInt (s : List Char) : Option Int :=
  match stripChars s with
  | '+' :: t => if t ≠ [] ∧ allDigits t then some (digitsVal t : Int) else none
  | '-' :: t => if t ≠ [] ∧ allDigits t then some (-(digitsVal t : Int)) else none
  | t => if t ≠ [] ∧ allDigits t then some (digitsVal t : Int) else none

/-- Unsigned plain decimal numeral: digits with at most one `'.'`, at least
one digit in total (Python accepts `'1.'` and `'.5'`). -/
def parseUnsignedQ (s : List Char) : Option ℚ :=
  match splitOnChar '.' s with
  | [ip] => if ip ≠ [] ∧ allDigits ip then some (digitsVal ip : ℚ) else none
  | [ip, fp] =>
    if (ip ≠ [] ∨ fp ≠ []) ∧ allDigits ip ∧ allDigits fp then
      some ((digitsVal ip : ℚ) + (digitsVal fp : ℚ) / 10 ^ fp.length)
    else none
  | _ => none

/-- Model of Python `float(s)` on the plain fixed-point numerals this program
produces and consumes (no exponents / inf / nan). -/
def parseFloat (s : List Char) : Option ℚ :=
  match stripChars s with
  | '+' :: t => parseUnsignedQ t
  | '-' :: t => (parseUnsignedQ t).map (fun q => -q)
  | t => parseUnsignedQ t

/-- Decimal digit characters of `m`, most significant first. -/
def natChars (m : ℕ) : List Char :=
  if m = 0 then ['0'] else ((Nat.digits 10 m).map Nat.digitChar).reverse

/-- Python `'%d' % z`. -/
def intChars (z : Int) : List Char :=
  if z < 0 then '-' :: natChars z.natAbs else natChars z.natAbs

/-- Digits of `m` padded with leading zeros to length `p`
(exact when `m < 10 ^ p`). -/
def natCharsPad (p : ℕ) (m : ℕ) : List Char :=
  List.replicate (p - (natChars m).length) '0' ++ natChars m

/-- `x` scaled to `p` decimal places and rounded to an integer (the rounding
performed by C `%.pf` formatting; ties are modelled as rounding up). -/
def fixRound (p : ℕ) (x : ℚ) : Int := ⌊x * 10 ^ p + 1 / 2⌋

/-- The rational value actually denoted by the `%.pf`-formatted text. -/
def roundFix (p : ℕ) (x : ℚ) : ℚ := (fixRound p x : ℚ) / 10 ^ p

/-- Model of Python `'%.pf' % x` (`'%f'` is `p = 6`). -/
def fmtFixed (p : ℕ) (x : ℚ) : List Char :=
  let n := fixRound p x
  let a := n.natAbs
  (if n < 0 then ['-'] else []) ++ natChars (a / 10 ^ p) ++
    (if p = 0 then [] else '.' :: natCharsPad p (a % 10 ^ p))

/-! ## Data model -/

/-- Python exception kinds raised on the modelled code paths. -/
inductive Err where
  | valueError
  | indexError
  | zeroDivisionError
  | toolError
deriving DecidableEq

/-- One BTS channel record, the 5-tuple `(band, channel, freq, freq_err, power)`
built by `CalTool.listChannels` / `BTSChannels.__init__`. -/
structure Channel where
  band : List Char
  channel : Int
  freq : ℚ
  dev : ℚ
  power : ℚ
deriving DecidableEq

/-! ## CalTool.listChannels (source lines 20-42) -/

/-- `'MHz'` as a character set for `rstrip`. -/
def mhzChars : List Char := ['M', 'H', 'z']

/-- `'power'` as a character set for `rstrip`. -/
def powChars : List Char := ['p', 'o', 'w', 'e', 'r']

/-- `'kHz)'` as a character set for `rstrip`. -/
def khzChars : List Char := ['k', 'H', 'z', ')']

/-- Lines 33-37: locate the sign inside the frequency block.  If a `'+'`
occurs anywhere, split on `'+'`; otherwise split on `'-'` and prefix the
remainder (stripped) with `'-'`.  A split that does not produce exactly two
parts raises `ValueError`. -/
def splitSign (freqS : List Char) : Option (List Char × List Char) :=
  if freqS.contains '+' then
    match splitOnChar '+' (stripChars freqS) with
    | [f, e] => some (f, e)
    | _ => none
  else
    match splitOnChar '-' (stripChars freqS) with
    | [f, e] => some (f, '-' :: stripChars e)
    | _ => none

/-- Line 38: `float(freq.strip().rstrip('MHz'))`. -/
def parseFreqPart (f : List Char) : Option ℚ :=
  parseFloat (rstripAny mhzChars (stripChars f))

/-- Line 39: `float(freq_err.strip().rstrip('power').strip().rstrip('kHz)'))`. -/
def parseErrPart (e : List Char) : Option ℚ :=
  parseFloat (rstripAny khzChars (stripChars (rstripAny powChars (stripChars e))))

/-- Parse of one (already stripped, nonempty) scan-output data line
(lines 30-41).  `_, ch, p = line.split(':')` requires exactly three fields,
`ch, freq = ch.strip().split('(')` exactly two; a failed unpack, `int()` or
`float()` raises `ValueError`. -/
def parseScanLine (band : List Char) (line : List Char) : Except Err Channel :=
  match splitOnChar ':' line with
  | [_, chS, pS] =>
    match splitOnChar '(' (stripChars chS) with
    | [chS2, freqS] =>
      match parseInt chS2 with
      | none => .error .valueError
      | some ch =>
        match splitSign freqS with
        | none => .error .valueError
        | some (f, e) =>
          match parseFreqPart f, parseErrPart e, parseFloat (stripChars pS) with
          | some freq, some ferr, some p => .ok ⟨band, ch, freq, ferr, p⟩
          | _, _, _ => .error .valueError
    | _ => .error .valueError
  | _ => .error .valueError

/-- The per-line loop of `listChannels` (lines 26-41): strip each line, skip
the blank ones, parse the rest in order; the first parse failure aborts. -/
def processLines (band : List Char) : List (List Char) → Except Err (List Channel)
  | [] => .ok []
  | line :: rest =>
    let line2 := stripChars line
    if line2 = [] then processLines band rest
    else
      match parseScanLine band line2 with
      | .error e => .error e
      | .ok ch =>
        match processLines band rest with
        | .error e => .error e
        | .ok chs => .ok (ch :: chs)

/-- `CalTool.listChannels` applied to the decoded stdout of the external tool
(lines 22-25): split on newlines, discard the first line, process the rest. -/
def listChannels (band : List Char) (output : List Char) : Except Err (List Channel) :=
  processLines band ((splitOnChar '\n' output).drop 1)

/-! ## CalTool.measureMeanPPM (source lines 53-65)

`measurePPM` invokes the external tool; it is modelled by an oracle
`measure : band → channel → Except Err ℚ`. -/

/-- The accumulation loop of `measureMeanPPM` (lines 58-62): `ppms`, `ppm`
(weighted sum) and `pwr` (total power) accumulate left to right; the first
failing measurement aborts. -/
def measureLoop (measure : List Char → Int → Except Err ℚ) :
    List Channel → List ℚ → ℚ → ℚ → Except Err (List ℚ × ℚ × ℚ)
  | [], ppms, ppm, pwr => .ok (ppms, ppm, pwr)
  | ch :: rest, ppms, ppm, pwr =>
    match measure ch.band ch.channel with
    | .error e => .error e
    | .ok v => measureLoop measure rest (ppms ++ [v]) (ppm + v * ch.power) (pwr + ch.power)

/-- `CalTool.measureMeanPPM` (lines 53-65): `ppm /= pwr` raises
`ZeroDivisionError` when `pwr` is zero; `max([...])` raises `ValueError` on an
empty list (unreachable once `pwr ≠ 0`). -/
def measureMeanPPM (measure : List Char → Int → Except Err ℚ)
    (channels : List Channel) : Except Err (ℚ × ℚ) :=
  match measureLoop measure channels [] 0 0 with
  | .error e => .error e
  | .ok (ppms, ppm, pwr) =>
    if pwr = 0 then .error .zeroDivisionError
    else
      let ppm2 := ppm / pwr
      match ppms.map (fun v => |v - ppm2|) with
      | [] => .error .valueError
      | e :: es => .ok (ppm2, es.foldl max e)

/-! ## BTSChannels: load / save (source lines 68-93) -/

/-- The exact header line (line 69). -/
def HDR : List Char := "band,channel,freq (MHz),freq deviation (kHz),power".toList

/-- Parse of one data line of the persisted file (lines 80-83):
`l.split(',')`, then `l[0], int(l[1]), float(l[2]), float(l[3]), float(l[4])`.
Fields past the fifth are ignored; fewer than five raise `IndexError`. -/
def parseCSVLine (l : List Char) : Except Err Channel :=
  match splitOnChar ',' l with
  | b :: c :: f :: d :: p :: _ =>
    match parseInt c, parseFloat f, parseFloat d, parseFloat p with
    | some ci, some fi, some di, some pw => .ok ⟨b, ci, fi, di, pw⟩
    | _, _, _, _ => .error .valueError
  | _ => .error .indexError

def loadLines : List (List Char) → Except Err (List Channel)
  | [] => .ok []
  | l :: rest =>
    match parseCSVLine l, loadLines rest with
    | .ok ch, .ok chs => .ok (ch :: chs)
    | .error e, _ => .error e
    | _, .error e => .error e

/-- `BTSChannels.__init__` reading a file (lines 74-84), the file given as its
list of lines.  `readline().strip()` compares the *stripped* first line with
the header (an empty file yields the empty string); a mismatch raises
`ValueError` before any record is read. -/
def load (lines : List (List Char)) : Except Err (List Channel) :=
  if stripChars (lines.headD []) ≠ HDR then .error .valueError
  else loadLines (lines.drop 1)

/-- `'%s,%d,%f,%f,%.2f' % ch` (line 93). -/
def saveLine (ch : Channel) : List Char :=
  ch.band ++ ',' :: intChars ch.channel ++ ',' :: fmtFixed 6 ch.freq ++
    ',' :: fmtFixed 6 ch.dev ++ ',' :: fmtFixed 2 ch.power

/-- `BTSChannels.save` (lines 89-93): the header line followed by one
formatted line per record. -/
def save (l : List Channel) : List (List Char) := HDR :: l.map saveLine

/-! ## BTSChannels.getBest (source lines 95-111) -/

/-- The scan of lines 100-104: running maximum of `|c[3] - f_mean|` together
with its index, starting from `_f_err, _idx = 0., -1` and updating only on a
strictly larger error (`f_err > _f_err`). -/
def findWorstAux (m : ℚ) : List Channel → ℕ → ℚ × Int → ℚ × Int
  | [], _, acc => acc
  | c :: cs, k, acc =>
    let e := |c.dev - m|
    findWorstAux m cs (k + 1) (if acc.1 < e then (e, (k : Int)) else acc)

def findWorst (l : List Channel) (m : ℚ) : ℚ × Int := findWorstAux m l 0 (0, -1)

/-- Python `channels.pop(i)` as reached on line 107: `i` is either a valid
index or the initial `-1`, which pops the *last* element. -/
def popAt (l : List Channel) (i : Int) : List Channel :=
  if i < 0 then l.dropLast else l.eraseIdx i.toNat

/-- The `while channels:` loop of lines 98-107, with explicit fuel (each
removal shrinks the list by one, so `fuel = l.length` makes the fuelled
version exact — proved below); the second component counts removals. -/
def getBestAux (t : ℚ) : ℕ → List Channel → List Channel × ℕ
  | 0, l => (l, 0)
  | fuel + 1, l =>
    if l = [] then (l, 0)
    else
      let m := (l.map Channel.dev).sum / (l.length : ℚ)
      let w := findWorst l m
      if w.1 < t then (l, 0)
      else
        let r := getBestAux t fuel (popAt l w.2)
        (r.1, r.2 + 1)

def getBestLoop (l : List Channel) (t : ℚ) : List Channel × ℕ :=
  getBestAux t l.length l

/-- Stable insertion: a later element goes after every earlier element the
order lets stand before it. -/
def insertLe (le : Channel → Channel → Bool) (x : Channel) : List Channel → List Channel
  | [] => [x]
  | y :: ys => if le y x then y :: insertLe le x ys else x :: y :: ys

/-- Python's `list.sort` is a stable sort; modelled by stable insertion. -/
def stableSort (le : Channel → Channel → Bool) (l : List Channel) : List Channel :=
  l.foldl (fun acc x => insertLe le x acc) []

/-- `channels.sort(key=lambda c: -c[4])` (line 110): stable ascending sort by
the key `-power`. -/
def sortByPower (l : List Channel) : List Channel :=
  stableSort (fun a b => decide (-a.power ≤ -b.power)) l

/-- `BTSChannels.getBest` (lines 95-111); defaults `nchannels = 3`,
`max_freq_err = 0.6`. -/
def getBest (self : List Channel) (nchannels : ℕ) (maxFreqErr : ℚ) : List Channel :=
  (sortByPower (getBestLoop self maxFreqErr).1).take nchannels

/-- `getBest` viewed together with the receiver object: `channels = self[:]`
copies the list (line 97), so every mutation (`pop`, `sort`) acts on the copy
and the method returns `self` unchanged next to its result. -/
def getBestCall (self : List Channel) (n : ℕ) (t : ℚ) : List Channel × List Channel :=
  let channels := self
  (self, (sortByPower (getBestLoop channels t).1).take n)

/-! ## Sample records used by concrete scenarios -/

/-- `(GSM900, 1, 900.0, 0.1, 50)` -/
def ch1 : Channel := ⟨"GSM900".toList, 1, 900, 1 / 10, 50⟩

/-- `(GSM900, 2, 900.2, 0.5, 80)` -/
def ch2 : Channel := ⟨"GSM900".toList, 2, 9002 / 10, 1 / 2, 80⟩

/-- `(GSM900, 3, 900.4, 5.0, 90)` -/
def ch3 : Channel := ⟨"GSM900".toList, 3, 9004 / 10, 5, 90⟩

/-- Two channels with equal deviation 1.0 and powers 50 / 80. -/
def cA : Channel := ⟨"GSM900".toList, 1, 900, 1, 50⟩

def cB : Channel := ⟨"GSM900".toList, 2, 9002 / 10, 1, 80⟩

/-- Channel with power 10 used in the aggregator scenario. -/
def chP1 : Channel := ⟨"GSM900".toList, 1, 900, 0, 10⟩

/-- Channel with power 30 used in the aggregator scenario. -/
def chP2 : Channel := ⟨"GSM900".toList, 2, 9002 / 10, 0, 30⟩

/-- Oracle returning PPM 1.0 for channel 1 and 2.0 otherwise. -/
def ppmOracle : List Char → Int → Except Err ℚ :=
  fun _ c => .ok (if c = 1 then 1 else 2)

/-- Index of the first occurrence of `q` (length of the list if absent). -/
def firstIdxOf (q : ℚ) : List ℚ → ℕ
  | [] => 0
  | d :: ds => if d = q then 0 else firstIdxOf q ds + 1

/-- Modelled from the spec (§4.3) and the claim's reference algorithm:
repeatedly compute the mean deviation of the remaining candidates; take the
largest absolute distance from it (distances are absolute values, hence
non-negative, so folding `max` from `0` over a non-empty set is exactly their
maximum); if it is below the threshold stop, otherwise remove exactly the
first candidate attaining it (the spec's determinism note) and repeat; the
loop also stops on an empty set.  Fuelled by the initial length, which bounds
the removals. -/
def refLoopAux (t : ℚ) : ℕ → List Channel → List Channel
  | 0, l => l
  | fuel + 1, l =>
    if l = [] then l
    else
      let m := (l.map Channel.dev).sum / (l.length : ℚ)
      let dists := l.map (fun c => |c.dev - m|)
      let M := dists.foldl max 0
      if M < t then l
      else refLoopAux t fuel (l.eraseIdx (firstIdxOf M dists))

/-- Modelled from the spec: the surviving consistent set, sorted descending
by power (stably), truncated to the first `n`. -/
def refGetBest (l : List Channel) (n : ℕ) (t : ℚ) : List Channel :=
  (sortByPower (refLoopAux t l.length l)).take n

/-- The record actually denoted by a saved line: `%f` keeps six decimal
places, `%.2f` two, so each float field is rounded to that precision. -/
def roundRecord (ch : Channel) : Channel :=
  ⟨ch.band, ch.channel, roundFix 6 ch.freq, roundFix 6 ch.dev, roundFix 2 ch.power⟩

/-- A string of plain numeral characters: nonempty digits and dots. -/
def plainNum (s : List Char) : Prop :=
  s ≠ [] ∧ ∀ c ∈ s, c.isDigit = true ∨ c = '.'

/-- The frequency block of a (corrected) scan data line:
`<fs>MHz<sgn><ds>kHz) power`. -/
def freqBlock (fs ds : List Char) (sgn : Char) : List Char :=
  fs ++ 'M' :: 'H' :: 'z' :: sgn ::
    (ds ++ 'k' :: 'H' :: 'z' :: ')' :: ' ' :: 'p' :: 'o' :: 'w' :: 'e' :: ['r'])

/-- A scan data line of the corrected grammar
`X: N (<fs>MHz<sgn><ds>kHz) power: <ps>` (the `')'` sits directly after the
`kHz` value, before the word `power`). -/
def scanLine (label ns fs ds ps : List Char) (sgn : Char) : List Char :=
  label ++ ':' :: ((' ' :: (ns ++ ' ' :: '(' :: freqBlock fs ds sgn)) ++ ':' :: ' ' :: ps)

/-! ## Basic lemmas about the selector loop -/

theorem findWorstAux_idx_bounds (m : ℚ) (l : List Channel) (k : ℕ) (acc : ℚ × Int)
    (h1 : -1 ≤ acc.2) (h2 : acc.2 < (k : Int)) :
    -1 ≤ (findWorstAux m l k acc).2 ∧ (findWorstAux m l k acc).2 < (k : Int) + l.length := by
  induction l generalizing k acc with
  | nil => simpa using ⟨h1, h2⟩
  | cons c cs ih =>
    simp only [findWorstAux]
    by_cases hlt : acc.1 < |c.dev - m|
    · simp only [hlt, if_pos]
      have := ih (k + 1) (|c.dev - m|, (k : Int)) (by simp; omega) (by simp)
      refine ⟨this.1, ?_⟩
      have := this.2
      simp only [List.length_cons]
      push_cast at this ⊢
      linarith
    · simp only [hlt, if_neg, not_false_iff]
      have := ih (k + 1) acc h1 (by push_cast; omega)
      refine ⟨this.1, ?_⟩
      have := this.2
      simp only [List.length_cons]
      push_cast at this ⊢
      linarith

theorem findWorst_idx_bounds (l : List Channel) (m : ℚ) :
    -1 ≤ (findWorst l m).2 ∧ (findWorst l m).2 < (l.length : Int) := by
  have := findWorstAux_idx_bounds m l 0 (0, -1) (by simp) (by simp)
  simpa [findWorst] using this

theorem popAt_length (l : List Channel) (i : Int) (_hne : l ≠ [])
    (hi : i < (l.length : Int)) : (popAt l i).length = l.length - 1 := by
  unfold popAt
  by_cases h : i < 0
  · simp [h]
  · have h0 : 0 ≤ i := le_of_not_lt h
    have : i.toNat < l.length := by omega
    simp [h, List.length_eraseIdx, this]

theorem popAt_length_lt (l : List Channel) (i : Int) (hne : l ≠ [])
    (hi : i < (l.length : Int)) : (popAt l i).length < l.length := by
  have h1 := popAt_length l i hne hi
  have h2 : l.length ≠ 0 := fun h => hne (List.length_eq_zero.mp h)
  omega

theorem getBestAux_fuel_stable (t : ℚ) (f1 f2 : ℕ) (l : List Channel)
    (h1 : l.length ≤ f1) (h2 : l.length ≤ f2) :
    getBestAux t f1 l = getBestAux t f2 l := by
  induction f1 generalizing f2 l with
  | zero =>
    have : l = [] := by
      cases l with
      | nil => rfl
      | cons a as => simp at h1
    subst this
    cases f2 with
    | zero => rfl
    | succ f => simp [getBestAux]
  | succ f ih =>
    cases f2 with
    | zero =>
      have : l = [] := by
        cases l with
        | nil => rfl
        | cons a as => simp at h2
      subst this
      simp [getBestAux]
    | succ g =>
      simp only [getBestAux]
      by_cases hl : l = []
      · simp [hl]
      · simp only [hl, if_neg, not_false_iff]
        have hw := (findWorst_idx_bounds l ((l.map Channel.dev).sum / (l.length : ℚ))).2
        have hlen := popAt_length l _ hl hw
        have hne0 : l.length ≠ 0 := fun h => hl (List.length_eq_zero.mp h)
        by_cases hc : (findWorst l ((l.map Channel.dev).sum / (l.length : ℚ))).1 < t
        · simp [hc]
        · simp only [hc, if_neg, not_false_iff]
          have heq := ih g (popAt l (findWorst l ((l.map Channel.dev).sum / (l.length : ℚ))).2)
            (by omega) (by omega)
          rw [heq]

/-- The defining equation of the loop: the fuelled version with
`fuel = l.length` satisfies exactly the `while` recursion of lines 98-107. -/
theorem getBestLoop_eq (l : List Channel) (t : ℚ) :
    getBestLoop l t =
      if l = [] then (l, 0)
      else
        let m := (l.map Channel.dev).sum / (l.length : ℚ)
        let w := findWorst l m
        if w.1 < t then (l, 0)
        else
          let r := getBestLoop (popAt l w.2) t
          (r.1, r.2 + 1) := by
  by_cases hl : l = []
  · subst hl; simp [getBestLoop, getBestAux]
  · have hne0 : l.length ≠ 0 := fun h => hl (List.length_eq_zero.mp h)
    have h1 : getBestLoop l t = getBestAux t (l.length + 1) l :=
      getBestAux_fuel_stable t l.length (l.length + 1) l le_rfl (by omega)
    rw [h1]
    simp only [getBestAux, hl, if_neg, not_false_iff]
    by_cases hc : (findWorst l ((l.map Channel.dev).sum / (l.length : ℚ))).1 < t
    · simp [hc]
    · simp only [hc, if_neg, not_false_iff, if_false]
      have hw := (findWorst_idx_bounds l ((l.map Channel.dev).sum / (l.length : ℚ))).2
      have hlen := popAt_length l _ hl hw
      have h2 := getBestAux_fuel_stable t l.length
        (popAt l (findWorst l ((l.map Channel.dev).sum / (l.length : ℚ))).2).length
        (popAt l (findWorst l ((l.map Channel.dev).sum / (l.length : ℚ))).2)
        (by omega) le_rfl
      rw [h2]
      rfl

theorem getBestAux_iters_le (t : ℚ) (fuel : ℕ) (l : List Channel) :
    (getBestAux t fuel l).2 ≤ fuel := by
  induction fuel generalizing l with
  | zero => simp [getBestAux]
  | succ f ih =>
    simp only [getBestAux]
    by_cases hl : l = []
    · simp [hl]
    · simp only [hl, if_neg, not_false_iff]
      by_cases hc : (findWorst l ((l.map Channel.dev).sum / (l.length : ℚ))).1 < t
      · simp [hc]
      · simp only [hc, if_neg, not_false_iff, if_false]
        have := ih (popAt l (findWorst l ((l.map Channel.dev).sum / (l.length : ℚ))).2)
        omega

theorem popAt_subset (l : List Channel) (i : Int) : popAt l i ⊆ l := by
  unfold popAt
  by_cases h : i < 0
  · simp only [h, if_pos]
    exact (List.dropLast_sublist l).subset
  · simp only [h, if_neg, not_false_iff]
    exact (List.eraseIdx_sublist l i.toNat).subset

theorem getBestAux_subset (t : ℚ) (fuel : ℕ) (l : List Channel) :
    (getBestAux t fuel l).1 ⊆ l := by
  induction fuel generalizing l with
  | zero => simp [getBestAux]
  | succ f ih =>
    simp only [getBestAux]
    by_cases hl : l = []
    · simp [hl]
    · simp only [hl, if_neg, not_false_iff]
      by_cases hc : (findWorst l ((l.map Channel.dev).sum / (l.length : ℚ))).1 < t
      · simp [hc]
      · simp only [hc, if_neg, not_false_iff, if_false]
        exact (ih _).trans (popAt_subset _ _)

theorem mem_insertLe (le : Channel → Channel → Bool) (x a : Channel) (l : List Channel) :
    a ∈ insertLe le x l ↔ a = x ∨ a ∈ l := by
  induction l with
  | nil => simp [insertLe]
  | cons y ys ih =>
    simp only [insertLe]
    by_cases h : le y x
    · simp only [h, if_pos, List.mem_cons, ih]
      tauto
    · simp only [h, if_neg, not_false_iff, Bool.false_eq_true, List.mem_cons]

theorem mem_stableSort_aux (le : Channel → Channel → Bool) (l acc : List Channel) (a : Channel) :
    a ∈ l.foldl (fun acc x => insertLe le x acc) acc ↔ a ∈ acc ∨ a ∈ l := by
  induction l generalizing acc with
  | nil => simp
  | cons x xs ih =>
    simp only [List.foldl_cons, ih, mem_insertLe, List.mem_cons]
    tauto

theorem mem_stableSort (le : Channel → Channel → Bool) (l : List Channel) (a : Channel) :
    a ∈ stableSort le l ↔ a ∈ l := by
  simp [stableSort, mem_stableSort_aux]

theorem length_insertLe (le : Channel → Channel → Bool) (x : Channel) (l : List Channel) :
    (insertLe le x l).length = l.length + 1 := by
  induction l with
  | nil => simp [insertLe]
  | cons y ys ih =>
    simp only [insertLe]
    by_cases h : le y x <;> simp [h, ih]

/-! ## C4: loop shrinkage, iteration bound, degenerate result -/

/-- C4: each outlier-removal iteration removes exactly one candidate
(`pop` shrinks the list by one), the loop performs at most `l.length`
removals, and on an empty candidate set `getBest` returns `[]`; the result is
never longer than the `n` requested. -/
theorem getBest_shrinkage_termination :
    (∀ (l : List Channel) (m : ℚ), l ≠ [] →
      (popAt l (findWorst l m).2).length + 1 = l.length) ∧
    (∀ (l : List Channel) (t : ℚ), (getBestLoop l t).2 ≤ l.length) ∧
    (∀ (n : ℕ) (t : ℚ), getBest [] n t = []) ∧
    (∀ (l : List Channel) (n : ℕ) (t : ℚ), (getBest l n t).length ≤ n) := by
  refine ⟨?_, ?_, ?_, ?_⟩
  · intro l m hne
    have hw := (findWorst_idx_bounds l m).2
    have h1 := popAt_length l _ hne hw
    have h2 : l.length ≠ 0 := fun h => hne (List.length_eq_zero.mp h)
    omega
  · intro l t
    exact getBestAux_iters_le t l.length l
  · intro n t
    simp [getBest, getBestLoop, getBestAux, sortByPower, stableSort]
  · intro l n t
    simp [getBest, List.length_take]

/-- Witness for C4 at concrete inputs. -/
theorem getBest_shrinkage_termination_witness :
    (popAt [cA, cB] (findWorst [cA, cB] 0).2).length + 1 = [cA, cB].length ∧
    (getBestLoop [cA, cB] 0).2 ≤ [cA, cB].length ∧
    getBest [] 2 (6 / 10) = [] ∧
    (getBest [cA, cB] 2 (6 / 10)).length ≤ 2 :=
  ⟨getBest_shrinkage_termination.1 [cA, cB] 0 (by simp),
   getBest_shrinkage_termination.2.1 [cA, cB] 0,
   getBest_shrinkage_termination.2.2.1 2 (6 / 10),
   getBest_shrinkage_termination.2.2.2 [cA, cB] 2 (6 / 10)⟩

/-! ## C9: getBest mutates nothing -/

/-- C9: the method copies `self` (`channels = self[:]`), so after the call the
receiver holds the same records in the same order, and every returned record
is one of the original records (selection never alters a record). -/
theorem getBest_no_mutation (self : List Channel) (n : ℕ) (t : ℚ) :
    (getBestCall self n t).1 = self ∧
      ∀ c ∈ (getBestCall self n t).2, c ∈ self := by
  refine ⟨rfl, ?_⟩
  intro c hc
  have h1 : c ∈ sortByPower (getBestLoop self t).1 := List.mem_of_mem_take hc
  have h2 : c ∈ (getBestLoop self t).1 := (mem_stableSort _ _ _).mp h1
  exact getBestAux_subset t self.length self h2

/-! ## Aggregator lemmas -/

theorem measureLoop_ok_pwr (measure : List Char → Int → Except Err ℚ)
    (chs : List Channel) (ppms : List ℚ) (s w : ℚ) (ps : List ℚ) (s2 w2 : ℚ)
    (h : measureLoop measure chs ppms s w = .ok (ps, s2, w2)) :
    w2 = w + (chs.map Channel.power).sum := by
  induction chs generalizing ppms s w with
  | nil =>
    simp only [measureLoop] at h
    cases h
    simp
  | cons ch rest ih =>
    simp only [measureLoop] at h
    cases hm : measure ch.band ch.channel with
    | error e => rw [hm] at h; cases h
    | ok v =>
      rw [hm] at h
      have := ih _ _ _ h
      simp only [List.map_cons, List.sum_cons] at this ⊢
      linarith

theorem measureLoop_total (f : List Char → Int → ℚ) (chs : List Channel)
    (ppms : List ℚ) (s w : ℚ) :
    measureLoop (fun b c => .ok (f b c)) chs ppms s w =
      .ok (ppms ++ chs.map (fun ch => f ch.band ch.channel),
           s + (chs.map (fun ch => f ch.band ch.channel * ch.power)).sum,
           w + (chs.map Channel.power).sum) := by
  induction chs generalizing ppms s w with
  | nil => simp [measureLoop]
  | cons ch rest ih =>
    simp only [measureLoop, ih, List.map_cons, List.sum_cons, List.append_assoc,
      List.singleton_append]
    refine congrArg _ ?_
    refine Prod.ext rfl (Prod.ext ?_ ?_) <;> simp <;> ring

theorem le_foldl_max (l : List ℚ) (a : ℚ) : a ≤ l.foldl max a := by
  induction l generalizing a with
  | nil => simp
  | cons x xs ih => exact le_trans (le_max_left a x) (ih (max a x))

theorem foldl_max_zero_cons (e : ℚ) (es : List ℚ) (he : 0 ≤ e) :
    (e :: es).foldl max 0 = es.foldl max e := by
  simp [List.foldl_cons, max_eq_right he]

/-! ## C3: zero total power -/

/-- C3: when the input's total power is zero (the empty sequence included)
the aggregator never returns a numeric result: if every per-channel
measurement succeeds it raises `ZeroDivisionError` (`ppm /= pwr`), and even
with failing measurements no `.ok` value can be produced. -/
theorem measureMeanPPM_zero_power (measure : List Char → Int → Except Err ℚ)
    (channels : List Channel)
    (hz : (channels.map Channel.power).sum = 0) :
    (∀ r : ℚ × ℚ, measureMeanPPM measure channels ≠ .ok r) ∧
    ((∀ ch ∈ channels, ∃ v, measure ch.band ch.channel = .ok v) →
      measureMeanPPM measure channels = .error .zeroDivisionError) := by
  constructor
  · intro r hr
    unfold measureMeanPPM at hr
    cases hml : measureLoop measure channels [] 0 0 with
    | error e => rw [hml] at hr; cases hr
    | ok res =>
      obtain ⟨ps, s2, w2⟩ := res
      rw [hml] at hr
      have hw : w2 = 0 := by
        have := measureLoop_ok_pwr measure channels [] 0 0 ps s2 w2 hml
        rw [this, hz]; ring
      simp only [hw, if_pos] at hr
      cases hr
  · intro hok
    have : ∀ (chs : List Channel) (ppms : List ℚ) (s w : ℚ),
        (∀ ch ∈ chs, ∃ v, measure ch.band ch.channel = .ok v) →
        ∃ ps s2 w2, measureLoop measure chs ppms s w = .ok (ps, s2, w2) := by
      intro chs
      induction chs with
      | nil => intro ppms s w _; exact ⟨ppms, s, w, rfl⟩
      | cons ch rest ih =>
        intro ppms s w hall
        obtain ⟨v, hv⟩ := hall ch (by simp)
        simp only [measureLoop, hv]
        exact ih _ _ _ (fun c hc => hall c (by simp [hc]))
    obtain ⟨ps, s2, w2, hml⟩ := this channels [] 0 0 hok
    have hw : w2 = 0 := by
      have := measureLoop_ok_pwr measure channels [] 0 0 ps s2 w2 hml
      rw [this, hz]; ring
    unfold measureMeanPPM
    rw [hml]
    simp [hw]

/-- Witness for C3: the empty channel list with an always-succeeding
measurement oracle. -/
theorem measureMeanPPM_zero_power_witness :
    measureMeanPPM (fun _ _ => Except.ok 0) [] = .error .zeroDivisionError :=
  (measureMeanPPM_zero_power (fun _ _ => Except.ok 0) [] (by simp)).2 (by simp)

/-! ## C2: power-weighted mean and error bound -/

/-- C2: for a non-empty channel sequence whose measurements all succeed
(modelled by a total oracle `f`) and whose total power is non-zero (the
degenerate zero-power input raises instead, see the zero-power theorem), the
aggregator returns exactly the power-weighted mean together with the maximum
absolute deviation of any single PPM from that mean, which is non-negative;
and on PPM values `[1.0, 2.0]` with powers `[10, 30]` it returns
`(1.75, 0.75)`. -/
theorem measureMeanPPM_weighted_mean (f : List Char → Int → ℚ)
    (channels : List Channel) (hne : channels ≠ [])
    (hp : (channels.map Channel.power).sum ≠ 0) :
    (measureMeanPPM (fun b c => .ok (f b c)) channels =
      .ok ((channels.map (fun ch => f ch.band ch.channel * ch.power)).sum /
             (channels.map Channel.power).sum,
           (channels.map (fun ch =>
             |f ch.band ch.channel -
               (channels.map (fun ch2 => f ch2.band ch2.channel * ch2.power)).sum /
                 (channels.map Channel.power).sum|)).foldl max 0) ∧
      0 ≤ (channels.map (fun ch =>
             |f ch.band ch.channel -
               (channels.map (fun ch2 => f ch2.band ch2.channel * ch2.power)).sum /
                 (channels.map Channel.power).sum|)).foldl max 0) ∧
    measureMeanPPM ppmOracle [chP1, chP2] = .ok (7 / 4, 3 / 4) := by
  constructor
  · constructor
    · obtain ⟨c, cs, rfl⟩ := List.exists_cons_of_ne_nil hne
      unfold measureMeanPPM
      rw [measureLoop_total]
      simp only [List.nil_append, zero_add, List.map_cons, List.sum_cons,
        List.map_map, Function.comp_def] at hp ⊢
      rw [if_neg hp]
      rw [foldl_max_zero_cons _ _ (abs_nonneg _)]
    · exact le_foldl_max _ 0
  · simp only [measureMeanPPM, measureLoop, ppmOracle, chP1, chP2]
    norm_num
    rw [show |(3 : ℚ) / 4| = 3 / 4 from abs_of_nonneg (by norm_num),
        show |(1 : ℚ) / 4| = 1 / 4 from abs_of_nonneg (by norm_num)]
    norm_num [max_def]

/-- Witness for C2 at the scenario input. -/
theorem measureMeanPPM_weighted_mean_witness :
    measureMeanPPM ppmOracle [chP1, chP2] = .ok (7 / 4, 3 / 4) :=
  (measureMeanPPM_weighted_mean (fun _ _ => 0) [chP1] (by simp)
    (by simp [chP1])).2

/-- Witness for C9 at a concrete input. -/
theorem getBest_no_mutation_witness :
    (getBestCall [cA, cB] 2 (6 / 10)).1 = [cA, cB] :=
  (getBest_no_mutation [cA, cB] 2 (6 / 10)).1

/-! ## Full characterisation of the findWorst scan -/

/-- Invariant of the scan `findWorstAux`: the result is either the unchanged
accumulator, with every element's error bounded by it, or the error and
(absolute) index of the *first* element strictly exceeding everything before
it and not exceeded afterwards. -/
theorem findWorstAux_spec (m : ℚ) (l : List Channel) (k : ℕ) (acc : ℚ × Int) :
    (findWorstAux m l k acc = acc ∧
      ∀ (i : ℕ) (hi : i < l.length), |(l.get ⟨i, hi⟩).dev - m| ≤ acc.1) ∨
    (∃ (i : ℕ) (hi : i < l.length),
      (findWorstAux m l k acc).2 = ((k + i : ℕ) : Int) ∧
      (findWorstAux m l k acc).1 = |(l.get ⟨i, hi⟩).dev - m| ∧
      acc.1 < (findWorstAux m l k acc).1 ∧
      (∀ (j : ℕ) (hj : j < l.length), j < i →
        |(l.get ⟨j, hj⟩).dev - m| < (findWorstAux m l k acc).1) ∧
      (∀ (j : ℕ) (hj : j < l.length),
        |(l.get ⟨j, hj⟩).dev - m| ≤ (findWorstAux m l k acc).1)) := by
  induction l generalizing k acc with
  | nil =>
    left
    refine ⟨rfl, ?_⟩
    intro i hi
    simp at hi
  | cons c cs ih =>
    by_cases hlt : acc.1 < |c.dev - m|
    · have hstep : findWorstAux m (c :: cs) k acc =
          findWorstAux m cs (k + 1) (|c.dev - m|, (k : Int)) := by
        simp [findWorstAux, hlt]
      rcases ih (k + 1) (|c.dev - m|, (k : Int)) with ⟨heq, hall⟩ | ⟨i, hi, hidx, hval, hacc, hfirst, hall⟩
      · right
        refine ⟨0, by simp, ?_, ?_, ?_, ?_, ?_⟩
        · rw [hstep, heq]; simp
        · rw [hstep, heq]; simp
        · rw [hstep, heq]; simpa using hlt
        · intro j hj hj0; omega
        · intro j hj
          rw [hstep, heq]
          cases j with
          | zero => simp
          | succ j2 =>
            simp only [List.get_cons_succ]
            exact hall j2 (by simpa using hj)
      · right
        refine ⟨i + 1, by simpa using hi, ?_, ?_, ?_, ?_, ?_⟩
        · rw [hstep, hidx]; push_cast; ring
        · rw [hstep, hval]; simp
        · rw [hstep]
          calc acc.1 < |c.dev - m| := hlt
            _ < _ := hacc
        · intro j hj hji
          rw [hstep]
          cases j with
          | zero =>
            exact hacc
          | succ j2 =>
            simp only [List.get_cons_succ]
            exact hfirst j2 (by simpa using hj) (by omega)
        · intro j hj
          rw [hstep]
          cases j with
          | zero => exact le_of_lt hacc
          | succ j2 =>
            simp only [List.get_cons_succ]
            exact hall j2 (by simpa using hj)
    · have hstep : findWorstAux m (c :: cs) k acc =
          findWorstAux m cs (k + 1) acc := by
        simp [findWorstAux, hlt]
      rcases ih (k + 1) acc with ⟨heq, hall⟩ | ⟨i, hi, hidx, hval, hacc, hfirst, hall⟩
      · left
        refine ⟨by rw [hstep, heq], ?_⟩
        intro i hi
        cases i with
        | zero => simpa using le_of_not_lt hlt
        | succ i2 =>
          simp only [List.get_cons_succ]
          exact hall i2 (by simpa using hi)
      · right
        refine ⟨i + 1, by simpa using hi, ?_, ?_, ?_, ?_, ?_⟩
        · rw [hstep, hidx]; push_cast; ring
        · rw [hstep, hval]; simp
        · rw [hstep]; exact hacc
        · intro j hj hji
          rw [hstep]
          cases j with
          | zero =>
            exact lt_of_le_of_lt (le_of_not_lt hlt) hacc
          | succ j2 =>
            simp only [List.get_cons_succ]
            exact hfirst j2 (by simpa using hj) (by omega)
        · intro j hj
          rw [hstep]
          cases j with
          | zero =>
            exact le_of_lt (lt_of_le_of_lt (le_of_not_lt hlt) hacc)
          | succ j2 =>
            simp only [List.get_cons_succ]
            exact hall j2 (by simpa using hj)

/-- `findWorst` either reports `(0, -1)` with every error equal to zero, or
the first index attaining the (positive) maximum error. -/
theorem findWorst_spec (l : List Channel) (m : ℚ) :
    (findWorst l m = (0, -1) ∧
      ∀ (i : ℕ) (hi : i < l.length), |(l.get ⟨i, hi⟩).dev - m| = 0) ∨
    (∃ (i : ℕ) (hi : i < l.length),
      (findWorst l m).2 = (i : Int) ∧
      (findWorst l m).1 = |(l.get ⟨i, hi⟩).dev - m| ∧
      0 < (findWorst l m).1 ∧
      (∀ (j : ℕ) (hj : j < l.length), j < i →
        |(l.get ⟨j, hj⟩).dev - m| < (findWorst l m).1) ∧
      (∀ (j : ℕ) (hj : j < l.length),
        |(l.get ⟨j, hj⟩).dev - m| ≤ (findWorst l m).1)) := by
  rcases findWorstAux_spec m l 0 (0, -1) with ⟨heq, hall⟩ | ⟨i, hi, hidx, hval, hacc, hfirst, hall⟩
  · left
    refine ⟨heq, fun i hi => le_antisymm (hall i hi) (abs_nonneg _)⟩
  · right
    exact ⟨i, hi, by simpa using hidx, hval, by simpa using hacc, hfirst, hall⟩

/-! ## C5: determinism and tie-breaking -/

/-- C5 (amended): `getBest` is a pure function of its input, so repeated runs
agree; whenever the largest absolute distance from the mean is positive the
scan selects the *first* candidate attaining it (all earlier candidates lie
strictly closer to the mean); but when every candidate's deviation equals the
mean the scan keeps its sentinel index `-1`, so a removal — possible only
with a non-positive threshold — pops the *last* candidate. -/
theorem getBest_deterministic_tie_break :
    (∀ (l : List Channel) (n : ℕ) (t : ℚ), getBest l n t = getBest l n t) ∧
    (∀ (l : List Channel) (m : ℚ), 0 < (findWorst l m).1 →
      ∃ (i : ℕ) (hi : i < l.length),
        (findWorst l m).2 = (i : Int) ∧
        (findWorst l m).1 = |(l.get ⟨i, hi⟩).dev - m| ∧
        (∀ (j : ℕ) (hj : j < l.length), j < i →
          |(l.get ⟨j, hj⟩).dev - m| < (findWorst l m).1) ∧
        (∀ (j : ℕ) (hj : j < l.length),
          |(l.get ⟨j, hj⟩).dev - m| ≤ (findWorst l m).1)) ∧
    (∀ (l : List Channel) (m : ℚ),
      (∀ (i : ℕ) (hi : i < l.length), |(l.get ⟨i, hi⟩).dev - m| = 0) →
      (findWorst l m).2 = -1 ∧ popAt l (-1) = l.dropLast) := by
  refine ⟨fun _ _ _ => rfl, ?_, ?_⟩
  · intro l m hpos
    rcases findWorst_spec l m with ⟨heq, _⟩ | ⟨i, hi, hidx, hval, _, hfirst, hall⟩
    · rw [heq] at hpos; exact absurd hpos (by norm_num)
    · exact ⟨i, hi, hidx, hval, hfirst, hall⟩
  · intro l m hzero
    rcases findWorst_spec l m with ⟨heq, _⟩ | ⟨i, hi, _, hval, hpos, _, _⟩
    · exact ⟨by rw [heq], by simp [popAt]⟩
    · rw [hval, hzero i hi] at hpos
      exact absurd hpos (by norm_num)

/-- Witness for C5 at concrete inputs: a positive-maximum list and an
all-tied list. -/
theorem getBest_deterministic_tie_break_witness :
    getBest [cA] 1 0 = getBest [cA] 1 0 ∧
    (∃ (i : ℕ) (hi : i < [ch1, ch3].length),
      (findWorst [ch1, ch3] 0).2 = (i : Int) ∧
      (findWorst [ch1, ch3] 0).1 = |([ch1, ch3].get ⟨i, hi⟩).dev - 0| ∧
      (∀ (j : ℕ) (hj : j < [ch1, ch3].length), j < i →
        |([ch1, ch3].get ⟨j, hj⟩).dev - 0| < (findWorst [ch1, ch3] 0).1) ∧
      (∀ (j : ℕ) (hj : j < [ch1, ch3].length),
        |([ch1, ch3].get ⟨j, hj⟩).dev - 0| ≤ (findWorst [ch1, ch3] 0).1)) ∧
    ((findWorst [cA, cB] 1).2 = -1 ∧ popAt [cA, cB] (-1) = [cA, cB].dropLast) :=
  ⟨getBest_deterministic_tie_break.1 [cA] 1 0,
   getBest_deterministic_tie_break.2.1 [ch1, ch3] 0 (by
     norm_num [findWorst, findWorstAux, ch1, ch3, abs]),
   getBest_deterministic_tie_break.2.2 [cA, cB] 1 (by
     intro i hi
     simp only [List.length_cons, List.length_nil] at hi
     interval_cases i <;> norm_num [cA, cB])⟩

/-- C5 counterexample: on `[cA, cB]` (equal deviations `1.0`, so both
candidates are tied for the largest distance `0` from the mean) with
threshold `0` the loop performs a removal (`_f_err < max_freq_err` is false)
and pops index `-1`: the *last* candidate `cB` is removed, leaving `[cA]`,
whereas removing the first tied candidate would leave `[cB]`. -/
theorem getBest_tie_break_counterexample :
    |cA.dev - ([cA, cB].map Channel.dev).sum / (([cA, cB].length : ℕ) : ℚ)| =
      |cB.dev - ([cA, cB].map Channel.dev).sum / (([cA, cB].length : ℕ) : ℚ)| ∧
    ¬ ((findWorst [cA, cB]
        (([cA, cB].map Channel.dev).sum / (([cA, cB].length : ℕ) : ℚ))).1 < 0) ∧
    popAt [cA, cB] (findWorst [cA, cB]
        (([cA, cB].map Channel.dev).sum / (([cA, cB].length : ℕ) : ℚ))).2 = [cA] ∧
    [cA] ≠ [cA, cB].eraseIdx 0 := by
  refine ⟨?_, ?_, ?_, ?_⟩
  · norm_num [cA, cB]
  · norm_num [findWorst, findWorstAux, cA, cB, abs]
  · norm_num [findWorst, findWorstAux, popAt, cA, cB, abs]
  · simp [cA, cB]

/-! ## C1: the reference selector from the spec -/

theorem foldl_max_mem (ds : List ℚ) (d : ℚ) :
    ds.foldl max d = d ∨ ds.foldl max d ∈ ds := by
  induction ds generalizing d with
  | nil => left; rfl
  | cons x xs ih =>
    rcases ih (max d x) with h | h
    · rw [List.foldl_cons, h]
      rcases max_choice d x with h2 | h2 <;> rw [h2]
      · left; rfl
      · right; simp
    · right
      rw [List.foldl_cons]
      simp [h]

theorem foldl_max_ge_mem (ds : List ℚ) : ∀ (d x : ℚ), x ∈ ds → x ≤ ds.foldl max d := by
  induction ds with
  | nil => intro d x hx; simp at hx
  | cons y ys ih =>
    intro d x hx
    rcases List.mem_cons.mp hx with rfl | h
    · exact le_trans (le_max_right d x) (le_foldl_max ys _)
    · rw [List.foldl_cons]
      exact ih (max d y) x h

theorem foldl_max_all_zero (ds : List ℚ) (h : ∀ x ∈ ds, x = 0) :
    ds.foldl max 0 = 0 := by
  induction ds with
  | nil => rfl
  | cons x xs ih =>
    have hx : x = 0 := h x (by simp)
    rw [List.foldl_cons, hx, max_self]
    exact ih (fun y hy => h y (by simp [hy]))

theorem firstIdxOf_spec (q : ℚ) (ds : List ℚ) (i : ℕ) (hi : i < ds.length)
    (hq : ds.get ⟨i, hi⟩ = q)
    (hfirst : ∀ (j : ℕ) (hj : j < ds.length), j < i → ds.get ⟨j, hj⟩ ≠ q) :
    firstIdxOf q ds = i := by
  induction ds generalizing i with
  | nil => simp at hi
  | cons d rest ih =>
    cases i with
    | zero =>
      have hq2 : d = q := hq
      simp [firstIdxOf, hq2]
    | succ i2 =>
      have hd : d ≠ q := by
        have := hfirst 0 (by simp) (by omega)
        simpa using this
      simp only [firstIdxOf, hd, if_neg, not_false_iff]
      have := ih i2 (by simpa using hi) (by simpa using hq)
        (fun j hj hji => by
          have := hfirst (j + 1) (by simpa using hj) (by omega)
          simpa using this)
      omega

theorem mean_all_eq (l : List Channel) (d : ℚ) (hne : l ≠ [])
    (hall : ∀ c ∈ l, c.dev = d) :
    (l.map Channel.dev).sum / (l.length : ℚ) = d := by
  have hmap : l.map Channel.dev = List.replicate l.length d := by
    refine List.eq_replicate_iff.mpr ⟨by simp, ?_⟩
    intro b hb
    obtain ⟨c, hc, rfl⟩ := List.mem_map.mp hb
    exact hall c hc
  have hlen : (l.length : ℚ) ≠ 0 := by
    have h0 : l.length ≠ 0 := fun h => hne (List.length_eq_zero.mp h)
    exact_mod_cast h0
  rw [hmap, List.sum_replicate, nsmul_eq_mul]
  field_simp

theorem findWorst_all_eq (l : List Channel) (m : ℚ)
    (hzero : ∀ (i : ℕ) (hi : i < l.length), |(l.get ⟨i, hi⟩).dev - m| = 0) :
    findWorst l m = (0, -1) := by
  rcases findWorst_spec l m with ⟨heq, _⟩ | ⟨i, hi, _, hval, hpos, _, _⟩
  · exact heq
  · rw [hval, hzero i hi] at hpos
    exact absurd hpos (by norm_num)

theorem findWorst_fst_eq_max (c : Channel) (cs : List Channel) (m : ℚ) :
    (findWorst (c :: cs) m).1 =
      (cs.map (fun x => |x.dev - m|)).foldl max |c.dev - m| := by
  have hub : ∀ x ∈ (c :: cs).map (fun x => |x.dev - m|),
      x ≤ (findWorst (c :: cs) m).1 := by
    intro x hx
    obtain ⟨ch, hch, rfl⟩ := List.mem_map.mp hx
    obtain ⟨⟨i, hi⟩, rfl⟩ := List.mem_iff_get.mp hch
    rcases findWorst_spec (c :: cs) m with ⟨heq, hall⟩ | ⟨_, _, _, _, _, _, hall⟩
    · rw [heq]
      exact le_of_eq (hall i hi)
    · exact hall i hi
  rcases findWorst_spec (c :: cs) m with ⟨heq, hall⟩ | ⟨i, hi, _, hval, _, _, _⟩
  · rw [heq]
    have h0 : |c.dev - m| = 0 := hall 0 (by simp)
    rw [h0]
    refine (foldl_max_all_zero _ ?_).symm
    intro x hx
    obtain ⟨ch, hch, rfl⟩ := List.mem_map.mp hx
    obtain ⟨⟨j, hj⟩, rfl⟩ := List.mem_iff_get.mp hch
    have := hall (j + 1) (by simpa using hj)
    simpa using this
  · refine le_antisymm ?_ ?_
    · rw [hval]
      cases i with
      | zero => exact le_foldl_max _ _
      | succ i2 =>
        refine foldl_max_ge_mem _ _ _ ?_
        refine List.mem_map.mpr ⟨(c :: cs).get ⟨i2 + 1, hi⟩, ?_, rfl⟩
        simp only [List.get_cons_succ]
        exact List.get_mem cs i2 _
    · rcases foldl_max_mem (cs.map (fun x => |x.dev - m|)) |c.dev - m| with h | h
      · rw [h]
        exact hub _ (by simp)
      · exact hub _ (by simp [h])

theorem getBestAux_all_eq_drain (t d : ℚ) :
    ∀ (fuel : ℕ) (l : List Channel), l.length ≤ fuel →
      (∀ c ∈ l, c.dev = d) → t ≤ 0 → (getBestAux t fuel l).1 = [] := by
  intro fuel
  induction fuel with
  | zero =>
    intro l hlen _ _
    have : l = [] := by cases l with
      | nil => rfl
      | cons a as => simp at hlen
    simp [this, getBestAux]
  | succ f ih =>
    intro l hlen hall ht
    by_cases hl : l = []
    · simp [hl, getBestAux]
    · simp only [getBestAux, hl, if_neg, not_false_iff]
      have hm := mean_all_eq l d hl hall
      have hz : ∀ (i : ℕ) (hi : i < l.length),
          |(l.get ⟨i, hi⟩).dev - (l.map Channel.dev).sum / (l.length : ℚ)| = 0 := by
        intro i hi
        rw [hall (l.get ⟨i, hi⟩) (List.get_mem l i hi), hm]
        simp
      have hfw := findWorst_all_eq l _ hz
      rw [hfw]
      have hcond : ¬ (((0 : ℚ), (-1 : Int)).1 < t) := by
        simp only [not_lt]
        exact ht
      rw [if_neg hcond]
      have hpop : popAt l ((0 : ℚ), (-1 : Int)).2 = l.dropLast := by
        simp [popAt]
      rw [hpop]
      refine ih l.dropLast ?_ ?_ ht
      · have h0 : l.length ≠ 0 := fun h => hl (List.length_eq_zero.mp h)
        simp only [List.length_dropLast]
        omega
      · intro c hc
        exact hall c ((List.dropLast_sublist l).subset hc)

theorem refLoopAux_all_eq_drain (t d : ℚ) :
    ∀ (fuel : ℕ) (l : List Channel), l.length ≤ fuel →
      (∀ c ∈ l, c.dev = d) → t ≤ 0 → refLoopAux t fuel l = [] := by
  intro fuel
  induction fuel with
  | zero =>
    intro l hlen _ _
    have : l = [] := by cases l with
      | nil => rfl
      | cons a as => simp at hlen
    simp [this, refLoopAux]
  | succ f ih =>
    intro l hlen hall ht
    by_cases hl : l = []
    · simp [hl, refLoopAux]
    · obtain ⟨c, cs, rfl⟩ := List.exists_cons_of_ne_nil hl
      have hm := mean_all_eq (c :: cs) d hl hall
      simp only [refLoopAux, hl, if_neg, not_false_iff]
      set m := ((c :: cs).map Channel.dev).sum / (((c :: cs).length : ℕ) : ℚ) with hmdef
      have hzero : ∀ x ∈ (c :: cs).map (fun x => |x.dev - m|), x = 0 := by
        intro x hx
        obtain ⟨ch, hch, rfl⟩ := List.mem_map.mp hx
        rw [hall ch hch, hm]
        simp
      have hM : ((c :: cs).map (fun x => |x.dev - m|)).foldl max 0 = 0 :=
        foldl_max_all_zero _ hzero
      rw [hM, if_neg (not_lt.mpr ht)]
      have hc0 : |c.dev - m| = 0 := hzero _ (by simp)
      have hidx : firstIdxOf 0 ((c :: cs).map (fun x => |x.dev - m|)) = 0 := by
        simp only [List.map_cons, firstIdxOf, hc0, if_pos]
      rw [hidx]
      simp only [List.eraseIdx_cons_zero]
      refine ih cs ?_ ?_ ht
      · simp only [List.length_cons] at hlen
        omega
      · intro x hx
        exact hall x (by simp [hx])

theorem findWorst_fst_eq_max0 (c : Channel) (cs : List Channel) (m : ℚ) :
    (findWorst (c :: cs) m).1 =
      ((c :: cs).map (fun x => |x.dev - m|)).foldl max 0 := by
  rw [findWorst_fst_eq_max, List.map_cons, foldl_max_zero_cons _ _ (abs_nonneg _)]

theorem get_map_abs (m : ℚ) (l : List Channel) :
    ∀ (j : ℕ) (hj : j < l.length),
      (l.map (fun x => |x.dev - m|)).get ⟨j, by simpa using hj⟩ =
        |(l.get ⟨j, hj⟩).dev - m| := by
  induction l with
  | nil => intro j hj; simp at hj
  | cons c cs ih =>
    intro j hj
    cases j with
    | zero => rfl
    | succ j2 => exact ih j2 (by simpa using hj)

theorem getBestAux_eq_refLoopAux (t : ℚ) :
    ∀ (fuel : ℕ) (l : List Channel), l.length ≤ fuel →
      (getBestAux t fuel l).1 = refLoopAux t fuel l := by
  intro fuel
  induction fuel with
  | zero => intro l _; rfl
  | succ f ih =>
    intro l hlen
    by_cases hl : l = []
    · simp [hl, getBestAux, refLoopAux]
    · obtain ⟨c, cs, rfl⟩ := List.exists_cons_of_ne_nil hl
      simp only [getBestAux, refLoopAux, hl, if_neg, not_false_iff]
      set m := ((c :: cs).map Channel.dev).sum / (((c :: cs).length : ℕ) : ℚ) with hmdef
      rw [findWorst_fst_eq_max0 c cs m]
      by_cases hcond : ((c :: cs).map (fun x => |x.dev - m|)).foldl max 0 < t
      · rw [if_pos hcond, if_pos hcond]
      · rw [if_neg hcond, if_neg hcond]
        rcases findWorst_spec (c :: cs) m with ⟨heq, hzero⟩ |
          ⟨i, hi, hidx, hval, hpos, hfirst, hall⟩
        · have hM0 : ((c :: cs).map (fun x => |x.dev - m|)).foldl max 0 = 0 := by
            refine foldl_max_all_zero _ ?_
            intro x hx
            obtain ⟨ch, hch, rfl⟩ := List.mem_map.mp hx
            obtain ⟨⟨j, hj⟩, rfl⟩ := List.mem_iff_get.mp hch
            exact hzero j hj
          have ht : t ≤ 0 := by
            rw [hM0] at hcond
            exact not_lt.mp hcond
          have halleq : ∀ x ∈ c :: cs, x.dev = m := by
            intro x hx
            obtain ⟨⟨j, hj⟩, rfl⟩ := List.mem_iff_get.mp hx
            have h0 := abs_eq_zero.mp (hzero j hj)
            linarith
          rw [heq]
          have hpop : popAt (c :: cs) ((0 : ℚ), (-1 : Int)).2 = (c :: cs).dropLast := by
            simp [popAt]
          rw [hpop, hM0]
          have hc0 : |c.dev - m| = 0 := hzero 0 (by simp)
          have hidx0 : firstIdxOf 0 ((c :: cs).map (fun x => |x.dev - m|)) = 0 := by
            simp only [List.map_cons, firstIdxOf, hc0, if_pos]
          rw [hidx0]
          simp only [List.eraseIdx_cons_zero]
          rw [getBestAux_all_eq_drain t m f (c :: cs).dropLast
              (by simp only [List.length_dropLast, List.length_cons] at hlen ⊢; omega)
              (fun x hx => halleq x ((List.dropLast_sublist _).subset hx)) ht,
            refLoopAux_all_eq_drain t m f cs
              (by simp only [List.length_cons] at hlen; omega)
              (fun x hx => halleq x (by simp [hx])) ht]
        · have hpop : popAt (c :: cs) (findWorst (c :: cs) m).2 = (c :: cs).eraseIdx i := by
            rw [hidx]
            simp [popAt]
          have hgetd : ∀ (j : ℕ) (hj : j < (c :: cs).length),
              ((c :: cs).map (fun x => |x.dev - m|)).get ⟨j, by simpa using hj⟩ =
                |((c :: cs).get ⟨j, hj⟩).dev - m| :=
            get_map_abs m (c :: cs)
          have hfi : firstIdxOf (((c :: cs).map (fun x => |x.dev - m|)).foldl max 0)
              ((c :: cs).map (fun x => |x.dev - m|)) = i := by
            refine firstIdxOf_spec _ _ i (by simpa using hi) ?_ ?_
            · rw [hgetd i hi, ← findWorst_fst_eq_max0 c cs m]
              exact hval.symm
            · intro j hj hji
              rw [hgetd j (by simpa using hj), ← findWorst_fst_eq_max0 c cs m]
              exact ne_of_lt (hfirst j (by simpa using hj) hji)
          rw [hpop, hfi]
          refine ih _ ?_
          have hlen2 : ((c :: cs).eraseIdx i).length = cs.length := by
            have hi2 : i < cs.length + 1 := by simpa using hi
            simp [List.length_eraseIdx, hi2]
          simp only [List.length_cons] at hlen
          omega

/-- C1: `getBest` coincides with the spec's reference algorithm on every
input (any list, any `n`, any threshold), and on the scenario input
`[(GSM900,1,900.0,0.1,50), (GSM900,2,900.2,0.5,80), (GSM900,3,900.4,5.0,90)]`
with threshold `0.6` and `n = 2` it removes channel 3 and returns channel 2
followed by channel 1. -/
theorem getBest_matches_reference :
    (∀ (l : List Channel) (n : ℕ) (t : ℚ), getBest l n t = refGetBest l n t) ∧
    getBest [ch1, ch2, ch3] 2 (6 / 10) = [ch2, ch1] := by
  constructor
  · intro l n t
    unfold getBest refGetBest getBestLoop
    rw [getBestAux_eq_refLoopAux t l.length l le_rfl]
  · have hfw1 : findWorst [ch1, ch2, ch3]
        (([ch1, ch2, ch3].map Channel.dev).sum / (([ch1, ch2, ch3].length : ℕ) : ℚ)) =
        (47 / 15, 2) := by
      have hm1 : (([ch1, ch2, ch3].map Channel.dev).sum /
          (([ch1, ch2, ch3].length : ℕ) : ℚ)) = 28 / 15 := by
        norm_num [ch1, ch2, ch3]
      rw [hm1]
      norm_num [findWorst, findWorstAux, ch1, ch2, ch3, abs]
    have hpop : popAt [ch1, ch2, ch3] ((47 / 15 : ℚ), (2 : Int)).2 = [ch1, ch2] := rfl
    have h1 : getBestLoop [ch1, ch2, ch3] (6 / 10) =
        ((getBestLoop [ch1, ch2] (6 / 10)).1, (getBestLoop [ch1, ch2] (6 / 10)).2 + 1) := by
      rw [getBestLoop_eq]
      rw [if_neg (by simp : ¬([ch1, ch2, ch3] = ([] : List Channel)))]
      simp only [hfw1, hpop]
      norm_num
    have hfw2 : findWorst [ch1, ch2]
        (([ch1, ch2].map Channel.dev).sum / (([ch1, ch2].length : ℕ) : ℚ)) =
        (1 / 5, 0) := by
      have hm2 : (([ch1, ch2].map Channel.dev).sum /
          (([ch1, ch2].length : ℕ) : ℚ)) = 3 / 10 := by
        norm_num [ch1, ch2]
      rw [hm2]
      norm_num [findWorst, findWorstAux, ch1, ch2, abs]
    have h2 : getBestLoop [ch1, ch2] (6 / 10) = ([ch1, ch2], 0) := by
      rw [getBestLoop_eq]
      rw [if_neg (by simp : ¬([ch1, ch2] = ([] : List Channel)))]
      simp only [hfw2]
      norm_num
    unfold getBest
    rw [h1]
    simp only [h2]
    norm_num [sortByPower, stableSort, insertLe, ch1, ch2]

/-! ## C6: header validation on load -/

/-- C6 (amended): `load` fails with `ValueError` — reading no records —
whenever the *whitespace-stripped* first line differs from the header
(an empty file, whose first read yields the empty string, also fails). -/
theorem load_header_rejection :
    (∀ (hdr : List Char) (rest : List (List Char)), stripChars hdr ≠ HDR →
      load (hdr :: rest) = .error .valueError) ∧
    load [] = .error .valueError := by
  constructor
  · intro hdr rest hne
    simp only [load, List.headD_cons]
    rw [if_pos hne]
  · rfl

/-- Witness for C6: a bogus header line. -/
theorem load_header_rejection_witness :
    load ["bogus".toList, "GSM900,1,900.0,0.1,50.00".toList] = .error .valueError :=
  load_header_rejection.1 "bogus".toList ["GSM900,1,900.0,0.1,50.00".toList] (by decide)

/-- C6 counterexample: a first line that is *not* byte-exactly the header
(it carries a leading space) is nevertheless accepted — `readline().strip()`
erases the difference — so load proceeds (here to an empty record list)
instead of failing. -/
theorem load_header_counterexample :
    " band,channel,freq (MHz),freq deviation (kHz),power".toList ≠ HDR ∧
    load [" band,channel,freq (MHz),freq deviation (kHz),power".toList] =
      .ok [] := by
  constructor
  · decide
  · rfl

/-! ## C10: blank lines in scan output -/

/-- C10: in the scan-output line loop, a whitespace-only line anywhere is
silently skipped (no record, no error), and an error can only arise from a
line that is non-empty after stripping and fails to parse. -/
theorem processLines_blank_skip :
    (∀ (band : List Char) (pre post : List (List Char)) (ws : List Char),
      stripChars ws = [] →
      processLines band (pre ++ ws :: post) = processLines band (pre ++ post)) ∧
    (∀ (band : List Char) (lines : List (List Char)) (e : Err),
      processLines band lines = .error e →
      ∃ line ∈ lines, stripChars line ≠ [] ∧
        parseScanLine band (stripChars line) = .error e) := by
  constructor
  · intro band pre post ws hws
    induction pre with
    | nil =>
      simp only [List.nil_append, processLines, hws, if_pos]
    | cons p ps ih =>
      simp only [List.cons_append, processLines]
      by_cases hp : stripChars p = []
      · rw [if_pos hp, if_pos hp]
        exact ih
      · rw [if_neg hp, if_neg hp]
        cases parseScanLine band (stripChars p) with
        | error e => rfl
        | ok ch =>
          have ih2 : processLines band (ps.append (ws :: post)) =
              processLines band (ps.append post) := ih
          simp only [ih2]
  · intro band lines
    induction lines with
    | nil => intro e h; cases h
    | cons line rest ih =>
      intro e h
      simp only [processLines] at h
      by_cases hl : stripChars line = []
      · rw [if_pos hl] at h
        obtain ⟨l2, hl2, hl3⟩ := ih e h
        exact ⟨l2, by simp [hl2], hl3⟩
      · rw [if_neg hl] at h
        cases hp : parseScanLine band (stripChars line) with
        | error e2 =>
          rw [hp] at h
          cases h
          exact ⟨line, by simp, hl, hp⟩
        | ok ch =>
          rw [hp] at h
          cases hr : processLines band rest with
          | error e2 =>
            rw [hr] at h
            cases h
            obtain ⟨l2, hl2, hl3⟩ := ih e hr
            exact ⟨l2, by simp [hl2], hl3⟩
          | ok chs => rw [hr] at h; cases h

/-- Witness for C10: a whitespace-only line is skipped; a junk line produces
the very error the theorem traces back to it. -/
theorem processLines_blank_skip_witness :
    processLines "GSM900".toList [[' ', '\t']] = processLines "GSM900".toList [] ∧
    ∃ line ∈ [['j', 'u', 'n', 'k']], stripChars line ≠ [] ∧
      parseScanLine "GSM900".toList (stripChars line) = .error .valueError :=
  ⟨processLines_blank_skip.1 "GSM900".toList [] [] [' ', '\t'] (by decide),
   processLines_blank_skip.2 "GSM900".toList [['j', 'u', 'n', 'k']] .valueError (by rfl)⟩

/-! ## Digit strings: formatting / parsing round trip -/

theorem digitVal_digitChar (d : ℕ) (hd : d < 10) : digitVal (Nat.digitChar d) = d := by
  interval_cases d <;> rfl

theorem digitsVal_append_singleton (xs : List Char) (c : Char) :
    digitsVal (xs ++ [c]) = 10 * digitsVal xs + digitVal c := by
  simp [digitsVal, List.foldl_append]

theorem digitsVal_rev_digits (ds : List ℕ) (h : ∀ d ∈ ds, d < 10) :
    digitsVal ((ds.map Nat.digitChar).reverse) = Nat.ofDigits 10 ds := by
  induction ds with
  | nil => rfl
  | cons d rest ih =>
    simp only [List.map_cons, List.reverse_cons]
    rw [digitsVal_append_singleton, ih (fun x hx => h x (by simp [hx])),
      digitVal_digitChar d (h d (by simp)), Nat.ofDigits_cons]
    ring

theorem digitsVal_natChars (m : ℕ) : digitsVal (natChars m) = m := by
  by_cases hm : m = 0
  · subst hm; rfl
  · unfold natChars
    rw [if_neg hm, digitsVal_rev_digits _ (fun d hd => Nat.digits_lt_base (by norm_num) hd),
      Nat.ofDigits_digits]

theorem natChars_all_digit (m : ℕ) : ∀ c ∈ natChars m, c.isDigit = true := by
  unfold natChars
  by_cases hm : m = 0
  · rw [if_pos hm]
    intro c hc
    simp only [List.mem_singleton] at hc
    subst hc
    rfl
  · rw [if_neg hm]
    intro c hc
    rw [List.mem_reverse] at hc
    obtain ⟨d, hd, rfl⟩ := List.mem_map.mp hc
    have : d < 10 := Nat.digits_lt_base (by norm_num) hd
    interval_cases d <;> rfl

theorem natChars_ne_nil (m : ℕ) : natChars m ≠ [] := by
  unfold natChars
  by_cases hm : m = 0
  · rw [if_pos hm]; simp
  · rw [if_neg hm]
    simp only [ne_eq, List.reverse_eq_nil_iff, List.map_eq_nil_iff]
    exact Nat.digits_ne_nil_iff_ne_zero.mpr hm

theorem natChars_len_le (m p : ℕ) (hp : 0 < p) (hm : m < 10 ^ p) :
    (natChars m).length ≤ p := by
  unfold natChars
  by_cases h0 : m = 0
  · rw [if_pos h0]; simpa using hp
  · rw [if_neg h0]
    simp only [List.length_reverse, List.length_map]
    rw [Nat.digits_len 10 m (by norm_num) h0]
    have := Nat.log_lt_of_lt_pow h0 hm
    omega

/-- Properties of a decimal digit character needed to push it through the
string machinery. -/
theorem isDigit_ne (c : Char) (h : c.isDigit = true) :
    c ≠ '+' ∧ c ≠ '-' ∧ c ≠ '.' ∧ isWS c = false ∧ c ≠ ',' ∧ c ≠ ':' ∧
      c ≠ '(' ∧ c ≠ ')' ∧ c ≠ '\n' ∧ c ∉ mhzChars ∧
      c ∉ powChars ∧ c ∉ khzChars := by
  refine ⟨?_, ?_, ?_, ?_, ?_, ?_, ?_, ?_, ?_, ?_, ?_, ?_⟩
  · rintro rfl; simp at h
  · rintro rfl; simp at h
  · rintro rfl; simp at h
  · by_contra hw
    have hw2 : isWS c = true := by
      cases hh : isWS c
      · exact absurd hh hw
      · rfl
    simp only [isWS, Char.isWhitespace, Bool.or_eq_true, decide_eq_true_eq] at hw2
    rcases hw2 with ((rfl | rfl) | rfl) | rfl <;> simp at h
  · rintro rfl; simp at h
  · rintro rfl; simp at h
  · rintro rfl; simp at h
  · rintro rfl; simp at h
  · rintro rfl; simp at h
  · intro hw
    simp only [mhzChars, List.mem_cons, List.not_mem_nil, or_false] at hw
    rcases hw with rfl | rfl | rfl <;> simp at h
  · intro hw
    simp only [powChars, List.mem_cons, List.not_mem_nil, or_false] at hw
    rcases hw with rfl | rfl | rfl | rfl | rfl <;> simp at h
  · intro hw
    simp only [khzChars, List.mem_cons, List.not_mem_nil, or_false] at hw
    rcases hw with rfl | rfl | rfl | rfl <;> simp at h

/-! ## strip / split lemmas -/

theorem dropWhile_all_false {p : Char → Bool} (s : List Char)
    (h : ∀ c ∈ s, p c = false) : s.dropWhile p = s := by
  cases s with
  | nil => rfl
  | cons c t => simp [List.dropWhile_cons, h c (by simp)]

theorem stripChars_eq_self (s : List Char) (h : ∀ c ∈ s, isWS c = false) :
    stripChars s = s := by
  unfold stripChars
  rw [dropWhile_all_false s h,
    dropWhile_all_false s.reverse (fun c hc => h c (List.mem_reverse.mp hc)),
    List.reverse_reverse]

theorem splitOnChar_ne_nil (c : Char) (s : List Char) : splitOnChar c s ≠ [] := by
  cases s with
  | nil => simp [splitOnChar]
  | cons x xs =>
    simp only [splitOnChar]
    cases h : splitOnChar c xs with
    | nil => simp
    | cons h2 t2 =>
      by_cases hx : x = c <;> simp [hx]

theorem splitOnChar_not_mem (c : Char) (s : List Char) (h : c ∉ s) :
    splitOnChar c s = [s] := by
  induction s with
  | nil => rfl
  | cons x xs ih =>
    have hx : x ≠ c := fun hh => h (by simp [hh])
    have hxs : c ∉ xs := fun hh => h (by simp [hh])
    simp only [splitOnChar, ih hxs]
    simp [hx]

theorem splitOnChar_append (c : Char) (xs ys : List Char) (h : c ∉ xs) :
    splitOnChar c (xs ++ c :: ys) = xs :: splitOnChar c ys := by
  induction xs with
  | nil =>
    simp only [List.nil_append, splitOnChar]
    cases hs : splitOnChar c ys with
    | nil => exact absurd hs (splitOnChar_ne_nil c ys)
    | cons h2 t2 => simp
  | cons x xs2 ih =>
    have hx : x ≠ c := fun hh => h (by simp [hh])
    have hxs : c ∉ xs2 := fun hh => h (by simp [hh])
    have ih2 : splitOnChar c (xs2.append (c :: ys)) = xs2 :: splitOnChar c ys := ih hxs
    simp only [List.cons_append, splitOnChar, ih2, ih hxs]
    simp [hx]

/-! ## Padded fraction digits -/

theorem digitsVal_cons_zero (s : List Char) : digitsVal ('0' :: s) = digitsVal s := by
  unfold digitsVal
  rw [List.foldl_cons]
  norm_num [show digitVal '0' = 0 from rfl]

theorem digitsVal_replicate_zero (k : ℕ) (t : List Char) :
    digitsVal (List.replicate k '0' ++ t) = digitsVal t := by
  induction k with
  | zero => rfl
  | succ k2 ih =>
    simp only [List.replicate_succ, List.cons_append, digitsVal_cons_zero]
    exact ih

theorem natCharsPad_all_digit (p m : ℕ) : ∀ c ∈ natCharsPad p m, c.isDigit = true := by
  intro c hc
  rcases List.mem_append.mp hc with h | h
  · rw [List.eq_of_mem_replicate h]
    rfl
  · exact natChars_all_digit m c h

theorem natCharsPad_length (p m : ℕ) (hp : 0 < p) (hm : m < 10 ^ p) :
    (natCharsPad p m).length = p := by
  have := natChars_len_le m p hp hm
  simp only [natCharsPad, List.length_append, List.length_replicate]
  omega

theorem digitsVal_natCharsPad (p m : ℕ) : digitsVal (natCharsPad p m) = m := by
  unfold natCharsPad
  rw [digitsVal_replicate_zero, digitsVal_natChars]

/-! ## parse of formatted numerals -/

theorem parseUnsignedQ_fixed (ip fp p : ℕ) (hp : 0 < p) (hfp : fp < 10 ^ p) :
    parseUnsignedQ (natChars ip ++ '.' :: natCharsPad p fp) =
      some ((ip : ℚ) + (fp : ℚ) / 10 ^ p) := by
  have hdot1 : '.' ∉ natChars ip := by
    intro hmem
    exact absurd rfl (isDigit_ne _ (natChars_all_digit ip _ hmem)).2.2.1
  have hdot2 : '.' ∉ natCharsPad p fp := by
    intro hmem
    exact absurd rfl (isDigit_ne _ (natCharsPad_all_digit p fp _ hmem)).2.2.1
  unfold parseUnsignedQ
  rw [splitOnChar_append '.' _ _ hdot1, splitOnChar_not_mem '.' _ hdot2]
  show (if (natChars ip ≠ [] ∨ natCharsPad p fp ≠ []) ∧
      allDigits (natChars ip) = true ∧ allDigits (natCharsPad p fp) = true then
      some ((digitsVal (natChars ip) : ℚ) +
        (digitsVal (natCharsPad p fp) : ℚ) / 10 ^ (natCharsPad p fp).length)
    else none) = some ((ip : ℚ) + (fp : ℚ) / 10 ^ p)
  rw [if_pos ⟨Or.inl (natChars_ne_nil ip),
    List.all_eq_true.mpr (natChars_all_digit ip),
    List.all_eq_true.mpr (natCharsPad_all_digit p fp)⟩]
  rw [digitsVal_natChars, digitsVal_natCharsPad, natCharsPad_length p fp hp hfp]

/-! ## parseFloat / parseInt on formatted output -/

theorem parseFloat_neg_head (t : List Char) (hs : ∀ x ∈ '-' :: t, isWS x = false) :
    parseFloat ('-' :: t) = (parseUnsignedQ t).map (fun q => -q) := by
  unfold parseFloat
  rw [stripChars_eq_self _ hs]
  rfl

theorem parseFloat_digit_head (c : Char) (t : List Char) (hc : c.isDigit = true)
    (hs : ∀ x ∈ c :: t, isWS x = false) :
    parseFloat (c :: t) = parseUnsignedQ (c :: t) := by
  unfold parseFloat
  rw [stripChars_eq_self _ hs]
  split
  · rename_i t2 heq
    injection heq with ha hb
    exact absurd ha (isDigit_ne c hc).1
  · rename_i t2 heq
    injection heq with ha hb
    exact absurd ha (isDigit_ne c hc).2.1
  · rfl

theorem parseInt_digits (s : List Char) (hne : s ≠ [])
    (hall : ∀ c ∈ s, c.isDigit = true) :
    parseInt s = some (digitsVal s : Int) := by
  cases s with
  | nil => exact absurd rfl hne
  | cons c t =>
    have hc := hall c (by simp)
    unfold parseInt
    rw [stripChars_eq_self _ (fun x hx => (isDigit_ne x (hall x hx)).2.2.2.1)]
    split
    · rename_i t2 heq
      injection heq with ha hb
      exact absurd ha (isDigit_ne c hc).1
    · rename_i t2 heq
      injection heq with ha hb
      exact absurd ha (isDigit_ne c hc).2.1
    · rename_i t2 h1 h2
      rw [if_pos ⟨by simp, List.all_eq_true.mpr hall⟩]

theorem parseInt_intChars (z : Int) : parseInt (intChars z) = some z := by
  unfold intChars
  by_cases hz : z < 0
  · rw [if_pos hz]
    unfold parseInt
    rw [stripChars_eq_self _ ?ws]
    case ws =>
      intro x hx
      rcases List.mem_cons.mp hx with rfl | hx2
      · rfl
      · exact (isDigit_ne x (natChars_all_digit _ x hx2)).2.2.2.1
    show (if natChars z.natAbs ≠ [] ∧ allDigits (natChars z.natAbs) = true then
        some (-(digitsVal (natChars z.natAbs) : Int)) else none) = some z
    rw [if_pos ⟨natChars_ne_nil _, List.all_eq_true.mpr (natChars_all_digit _)⟩,
      digitsVal_natChars]
    congr 1
    omega
  · rw [if_neg hz]
    rw [parseInt_digits _ (natChars_ne_nil _) (natChars_all_digit _),
      digitsVal_natChars]
    congr 1
    omega

theorem fmtFixed_chars (p : ℕ) (x : ℚ) :
    ∀ c ∈ fmtFixed p x, c.isDigit = true ∨ c = '.' ∨ c = '-' := by
  intro c hc
  simp only [fmtFixed] at hc
  rcases List.mem_append.mp hc with h | h
  · rcases List.mem_append.mp h with h2 | h2
    · by_cases hneg : fixRound p x < 0
      · rw [if_pos hneg] at h2
        simp only [List.mem_singleton] at h2
        exact Or.inr (Or.inr h2)
      · rw [if_neg hneg] at h2
        simp at h2
    · exact Or.inl (natChars_all_digit _ c h2)
  · by_cases hp : p = 0
    · rw [if_pos hp] at h
      simp at h
    · rw [if_neg hp] at h
      rcases List.mem_cons.mp h with rfl | h2
      · exact Or.inr (Or.inl rfl)
      · exact Or.inl (natCharsPad_all_digit _ _ c h2)

theorem fmtFixed_ws (p : ℕ) (x : ℚ) : ∀ c ∈ fmtFixed p x, isWS c = false := by
  intro c hc
  rcases fmtFixed_chars p x c hc with h | rfl | rfl
  · exact (isDigit_ne c h).2.2.2.1
  · rfl
  · rfl

theorem q_div_mod (a p : ℕ) :
    ((a / 10 ^ p : ℕ) : ℚ) + ((a % 10 ^ p : ℕ) : ℚ) / 10 ^ p = (a : ℚ) / 10 ^ p := by
  have h := Nat.div_add_mod a (10 ^ p)
  have h2 : ((10 : ℚ) ^ p) ≠ 0 := by positivity
  field_simp
  have h3 : ((10 ^ p * (a / 10 ^ p) + a % 10 ^ p : ℕ) : ℚ) = (a : ℚ) := by
    exact_mod_cast congrArg (fun n : ℕ => (n : ℚ)) h
  push_cast at h3
  linear_combination h3

theorem parseFloat_fmtFixed (p : ℕ) (x : ℚ) (hp : 0 < p) :
    parseFloat (fmtFixed p x) = some (roundFix p x) := by
  have hp0 : p ≠ 0 := Nat.pos_iff_ne_zero.mp hp
  have hmod : (fixRound p x).natAbs % 10 ^ p < 10 ^ p :=
    Nat.mod_lt _ (by positivity)
  by_cases hneg : fixRound p x < 0
  · have hfmt : fmtFixed p x = '-' ::
        (natChars ((fixRound p x).natAbs / 10 ^ p) ++
          '.' :: natCharsPad p ((fixRound p x).natAbs % 10 ^ p)) := by
      simp only [fmtFixed, if_pos hneg, if_neg hp0, List.singleton_append,
        List.cons_append, List.nil_append]
    rw [hfmt, parseFloat_neg_head _ (by
      rw [← hfmt]
      exact fmtFixed_ws p x)]
    rw [parseUnsignedQ_fixed _ _ p hp hmod]
    show some (-(((fixRound p x).natAbs / 10 ^ p : ℕ) +
      ((fixRound p x).natAbs % 10 ^ p : ℕ) / (10 : ℚ) ^ p)) = some (roundFix p x)
    rw [q_div_mod]
    unfold roundFix
    congr 1
    have habs : ((fixRound p x).natAbs : ℚ) = -((fixRound p x : ℚ)) := by
      rw [Int.cast_natAbs]
      exact_mod_cast abs_of_nonpos (le_of_lt hneg)
    rw [habs]
    ring
  · have hfmt : fmtFixed p x = natChars ((fixRound p x).natAbs / 10 ^ p) ++
        '.' :: natCharsPad p ((fixRound p x).natAbs % 10 ^ p) := by
      simp [fmtFixed, hneg, hp0]
    cases hnc : natChars ((fixRound p x).natAbs / 10 ^ p) with
    | nil => exact absurd hnc (natChars_ne_nil _)
    | cons c t =>
      have hc : c.isDigit = true := natChars_all_digit _ c (by rw [hnc]; simp)
      rw [hfmt, hnc, List.cons_append, parseFloat_digit_head c _ hc (by
        rw [← List.cons_append, ← hnc, ← hfmt]
        exact fmtFixed_ws p x)]
      rw [← List.cons_append, ← hnc, parseUnsignedQ_fixed _ _ p hp hmod]
      rw [q_div_mod]
      unfold roundFix
      congr 1
      have habs : ((fixRound p x).natAbs : ℚ) = ((fixRound p x : ℚ)) := by
        rw [Int.cast_natAbs]
        exact_mod_cast abs_of_nonneg (le_of_not_lt hneg)
      rw [habs]

/-! ## C7: save / load round trip -/

theorem intChars_chars (z : Int) : ∀ c ∈ intChars z, c.isDigit = true ∨ c = '-' := by
  intro c hc
  unfold intChars at hc
  by_cases hz : z < 0
  · rw [if_pos hz] at hc
    rcases List.mem_cons.mp hc with rfl | h2
    · exact Or.inr rfl
    · exact Or.inl (natChars_all_digit _ c h2)
  · rw [if_neg hz] at hc
    exact Or.inl (natChars_all_digit _ c hc)

theorem comma_not_mem_intChars (z : Int) : ',' ∉ intChars z := by
  intro h
  rcases intChars_chars z ',' h with h2 | h2
  · exact (isDigit_ne ',' h2).2.2.2.2.1 rfl
  · cases h2

theorem comma_not_mem_fmtFixed (p : ℕ) (x : ℚ) : ',' ∉ fmtFixed p x := by
  intro h
  rcases fmtFixed_chars p x ',' h with h2 | h2 | h2
  · exact (isDigit_ne ',' h2).2.2.2.2.1 rfl
  · cases h2
  · cases h2

theorem parseCSVLine_saveLine (ch : Channel) (hb : ',' ∉ ch.band) :
    parseCSVLine (saveLine ch) = .ok (roundRecord ch) := by
  have hsplit : splitOnChar ',' (saveLine ch) =
      [ch.band, intChars ch.channel, fmtFixed 6 ch.freq, fmtFixed 6 ch.dev,
        fmtFixed 2 ch.power] := by
    unfold saveLine
    simp only [List.cons_append, List.append_assoc]
    rw [splitOnChar_append ',' ch.band _ hb,
      splitOnChar_append ',' _ _ (comma_not_mem_intChars ch.channel),
      splitOnChar_append ',' _ _ (comma_not_mem_fmtFixed 6 ch.freq),
      splitOnChar_append ',' _ _ (comma_not_mem_fmtFixed 6 ch.dev),
      splitOnChar_not_mem ',' _ (comma_not_mem_fmtFixed 2 ch.power)]
  unfold parseCSVLine
  rw [hsplit]
  show (match parseInt (intChars ch.channel), parseFloat (fmtFixed 6 ch.freq),
      parseFloat (fmtFixed 6 ch.dev), parseFloat (fmtFixed 2 ch.power) with
    | some ci, some fi, some di, some pw => Except.ok (⟨ch.band, ci, fi, di, pw⟩ : Channel)
    | _, _, _, _ => Except.error Err.valueError) = Except.ok (roundRecord ch)
  rw [parseInt_intChars, parseFloat_fmtFixed 6 _ (by norm_num),
    parseFloat_fmtFixed 6 _ (by norm_num), parseFloat_fmtFixed 2 _ (by norm_num)]
  rfl

theorem loadLines_saveLines (l : List Channel) (hb : ∀ ch ∈ l, ',' ∉ ch.band) :
    loadLines (l.map saveLine) = .ok (l.map roundRecord) := by
  induction l with
  | nil => rfl
  | cons ch rest ih =>
    simp only [List.map_cons, loadLines]
    rw [parseCSVLine_saveLine ch (hb ch (by simp)),
      ih (fun c hc => hb c (by simp [hc]))]

/-- C7: saving any channel list (bands free of `','` and `'\n'`, which would
corrupt the physical line format) and reloading the written text yields the
same records with each floating-point field rounded to the precision `save`
used: `%f` six decimals for frequency and deviation, `%.2f` two for power. -/
theorem save_load_round_trip (l : List Channel)
    (hb : ∀ ch ∈ l, ',' ∉ ch.band ∧ '\n' ∉ ch.band) :
    load (save l) = .ok (l.map roundRecord) := by
  have hhdr : stripChars HDR = HDR := by decide
  unfold load save
  simp only [List.headD_cons]
  rw [if_neg (fun h => h hhdr)]
  simp only [List.drop_one, List.tail_cons]
  exact loadLines_saveLines l (fun ch hch => (hb ch hch).1)

/-- Witness for C7 on a one-record list. -/
theorem save_load_round_trip_witness :
    load (save [ch1]) = .ok ([ch1].map roundRecord) :=
  save_load_round_trip [ch1] (by decide)

/-! ## C8: string lemmas for the scan-line grammar -/

theorem dropWhile_head_false {p : Char → Bool} (s : List Char)
    (h : ∀ c, s.head? = some c → p c = false) : s.dropWhile p = s := by
  cases s with
  | nil => rfl
  | cons a t => simp [List.dropWhile_cons, h a rfl]

theorem stripChars_eq_self_ends (xs : List Char)
    (h1 : ∀ c, xs.head? = some c → isWS c = false)
    (h2 : ∀ c, xs.getLast? = some c → isWS c = false) :
    stripChars xs = xs := by
  unfold stripChars
  rw [dropWhile_head_false xs h1,
    dropWhile_head_false xs.reverse (fun c hc => h2 c (by rwa [List.head?_reverse] at hc)),
    List.reverse_reverse]

theorem stripChars_cons_ws (c : Char) (xs : List Char) (hc : isWS c = true) :
    stripChars (c :: xs) = stripChars xs := by
  unfold stripChars
  rw [List.dropWhile_cons_of_pos hc]

theorem dropWhile_append_all {p : Char → Bool} (as bs : List Char)
    (h : ∀ c ∈ as, p c = true) :
    (as ++ bs).dropWhile p = bs.dropWhile p := by
  induction as with
  | nil => rfl
  | cons a t ih =>
    rw [List.cons_append, List.dropWhile_cons_of_pos (h a (by simp))]
    exact ih (fun c hc => h c (by simp [hc]))

theorem rstripAny_append_all (set xs ys : List Char) (h : ∀ c ∈ ys, c ∈ set) :
    rstripAny set (xs ++ ys) = rstripAny set xs := by
  unfold rstripAny
  rw [List.reverse_append,
    dropWhile_append_all _ _ (fun c hc => by
      simp only [decide_eq_true_eq]
      exact h c (List.mem_reverse.mp hc))]

theorem rstripAny_eq_self_last (set xs : List Char)
    (h : ∀ c, xs.getLast? = some c → c ∉ set) :
    rstripAny set xs = xs := by
  unfold rstripAny
  rw [dropWhile_head_false xs.reverse (fun c hc => by
      simp only [decide_eq_false_iff_not]
      exact h c (by rwa [List.head?_reverse] at hc)),
    List.reverse_reverse]

/-- The character facts for plain numeral characters (digit or `'.'`). -/
theorem plain_ne (c : Char) (h : c.isDigit = true ∨ c = '.') :
    c ≠ '+' ∧ c ≠ '-' ∧ isWS c = false ∧ c ≠ ',' ∧ c ≠ ':' ∧
      c ≠ '(' ∧ c ≠ ')' ∧ c ≠ '\n' ∧ c ∉ mhzChars ∧
      c ∉ powChars ∧ c ∉ khzChars := by
  rcases h with h | rfl
  · obtain ⟨h1, h2, _, h4, h5, h6, h7, h8, h9, h10, h11, h12⟩ := isDigit_ne c h
    exact ⟨h1, h2, h4, h5, h6, h7, h8, h9, h10, h11, h12⟩
  · refine ⟨by decide, by decide, rfl, by decide, by decide, by decide, by decide,
      by decide, by decide, by decide, by decide⟩

theorem nmem_cons {a c : Char} {xs : List Char} (h1 : a ≠ c) (h2 : a ∉ xs) :
    a ∉ c :: xs := by
  intro h
  rcases List.mem_cons.mp h with rfl | h3
  · exact h1 rfl
  · exact h2 h3

theorem nmem_append {a : Char} {xs ys : List Char} (h1 : a ∉ xs) (h2 : a ∉ ys) :
    a ∉ xs ++ ys := by
  intro h
  rcases List.mem_append.mp h with h3 | h3
  · exact h1 h3
  · exact h2 h3

theorem head?_mem {c : Char} {l : List Char} (h : l.head? = some c) : c ∈ l := by
  cases l with
  | nil => cases h
  | cons a t =>
    injection h with h2
    simp [← h2]

theorem getLast?_mem {c : Char} {l : List Char} (h : l.getLast? = some c) : c ∈ l := by
  induction l with
  | nil => cases h
  | cons a t ih =>
    cases t with
    | nil =>
      simp only [List.getLast?_singleton, Option.some.injEq] at h
      simp [← h]
    | cons b u =>
      rw [List.getLast?_cons_cons] at h
      exact List.mem_cons_of_mem a (ih h)

theorem plainNum_not_colon {s : List Char} (hs : plainNum s) : ':' ∉ s :=
  fun h => (plain_ne _ (hs.2 _ h)).2.2.2.2.1 rfl

theorem plainNum_not_plus {s : List Char} (hs : plainNum s) : '+' ∉ s :=
  fun h => (plain_ne _ (hs.2 _ h)).1 rfl

theorem plainNum_not_minus {s : List Char} (hs : plainNum s) : '-' ∉ s :=
  fun h => (plain_ne _ (hs.2 _ h)).2.1 rfl

theorem plainNum_not_lparen {s : List Char} (hs : plainNum s) : '(' ∉ s :=
  fun h => (plain_ne _ (hs.2 _ h)).2.2.2.2.2.1 rfl

theorem plainNum_ws {s : List Char} (hs : plainNum s) :
    ∀ c ∈ s, isWS c = false :=
  fun c hc => (plain_ne c (hs.2 c hc)).2.2.1

theorem plainNum_strip {s : List Char} (hs : plainNum s) : stripChars s = s :=
  stripChars_eq_self s (plainNum_ws hs)

theorem parseFloat_plain_head (c : Char) (t : List Char) (h1 : c ≠ '+')
    (h2 : c ≠ '-') (hs : ∀ x ∈ c :: t, isWS x = false) :
    parseFloat (c :: t) = parseUnsignedQ (c :: t) := by
  unfold parseFloat
  rw [stripChars_eq_self _ hs]
  split
  · rename_i t2 heq
    injection heq with ha hb
    exact absurd ha h1
  · rename_i t2 heq
    injection heq with ha hb
    exact absurd ha h2
  · rfl

theorem parseFloat_plainNum {s : List Char} (hs : plainNum s) :
    parseFloat s = parseUnsignedQ s := by
  obtain ⟨hne, hall⟩ := hs
  cases s with
  | nil => exact absurd rfl hne
  | cons c t =>
    have hc := hall c (by simp)
    exact parseFloat_plain_head c t (plain_ne c hc).1 (plain_ne c hc).2.1
      (plainNum_ws ⟨hne, hall⟩)

theorem parseInt_strips (s ns : List Char) (hst : stripChars s = ns)
    (hne : ns ≠ []) (hall : ∀ c ∈ ns, c.isDigit = true) :
    parseInt s = some (digitsVal ns : Int) := by
  cases ns with
  | nil => exact absurd rfl hne
  | cons c t =>
    have hc := hall c (by simp)
    unfold parseInt
    rw [hst]
    split
    · rename_i t2 heq
      injection heq with ha hb
      exact absurd ha (isDigit_ne c hc).1
    · rename_i t2 heq
      injection heq with ha hb
      exact absurd ha (isDigit_ne c hc).2.1
    · rename_i t2 hy1 hy2
      rw [if_pos ⟨by simp, List.all_eq_true.mpr hall⟩]

theorem stripChars_trailing_ws (xs : List Char) (w : Char) (hw : isWS w = true)
    (hne : xs ≠ [])
    (h1 : ∀ c, xs.head? = some c → isWS c = false)
    (h2 : ∀ c, xs.getLast? = some c → isWS c = false) :
    stripChars (xs ++ [w]) = xs := by
  unfold stripChars
  rw [dropWhile_head_false (xs ++ [w]) (fun c hc => by
    rw [List.head?_append_of_ne_nil _ hne] at hc
    exact h1 c hc)]
  rw [List.reverse_append, List.reverse_singleton, List.singleton_append,
    List.dropWhile_cons_of_pos hw,
    dropWhile_head_false xs.reverse (fun c hc =>
      h2 c (by rwa [List.head?_reverse] at hc)),
    List.reverse_reverse]

theorem nmem_freqBlock {x : Char} {fs ds : List Char} {sgn : Char}
    (h1 : x ∉ fs) (h2 : x ∉ ds) (h3 : x ≠ sgn)
    (h4 : x ∉ (['M', 'H', 'z', 'k', ')', ' ', 'p', 'o', 'w', 'e', 'r'] : List Char)) :
    x ∉ freqBlock fs ds sgn := by
  have hM : x ≠ 'M' := fun hh => h4 (by rw [hh]; decide)
  have hH : x ≠ 'H' := fun hh => h4 (by rw [hh]; decide)
  have hz : x ≠ 'z' := fun hh => h4 (by rw [hh]; decide)
  have hk : x ≠ 'k' := fun hh => h4 (by rw [hh]; decide)
  have hrp : x ≠ ')' := fun hh => h4 (by rw [hh]; decide)
  have hsp : x ≠ ' ' := fun hh => h4 (by rw [hh]; decide)
  have hp : x ≠ 'p' := fun hh => h4 (by rw [hh]; decide)
  have ho : x ≠ 'o' := fun hh => h4 (by rw [hh]; decide)
  have hw : x ≠ 'w' := fun hh => h4 (by rw [hh]; decide)
  have he : x ≠ 'e' := fun hh => h4 (by rw [hh]; decide)
  have hr : x ≠ 'r' := fun hh => h4 (by rw [hh]; decide)
  unfold freqBlock
  have hC : x ∉ 'k' :: 'H' :: 'z' :: ')' :: ' ' :: 'p' :: 'o' :: 'w' :: 'e' :: ['r'] :=
    nmem_cons hk (nmem_cons hH (nmem_cons hz (nmem_cons hrp (nmem_cons hsp
      (nmem_cons hp (nmem_cons ho (nmem_cons hw (nmem_cons he
        (nmem_cons hr (by simp))))))))))
  exact nmem_append h1 (nmem_cons hM (nmem_cons hH (nmem_cons hz
    (nmem_cons h3 (nmem_append h2 hC)))))

theorem freqBlock_getLast (fs ds : List Char) (sgn : Char) :
    (freqBlock fs ds sgn).getLast? = some 'r' := by
  unfold freqBlock
  rw [List.getLast?_append_of_ne_nil _ (by simp),
    List.getLast?_cons_cons, List.getLast?_cons_cons, List.getLast?_cons_cons,
    show sgn :: (ds ++ 'k' :: 'H' :: 'z' :: ')' :: ' ' :: 'p' :: 'o' :: 'w' ::
      'e' :: ['r']) = [sgn] ++ (ds ++ 'k' :: 'H' :: 'z' :: ')' :: ' ' :: 'p' ::
      'o' :: 'w' :: 'e' :: ['r']) from rfl,
    List.getLast?_append_of_ne_nil _ (by simp),
    List.getLast?_append_of_ne_nil _ (by simp)]
  rfl

theorem freqBlock_head {fs ds : List Char} {sgn : Char} (hfs : plainNum fs) :
    ∀ c, (freqBlock fs ds sgn).head? = some c → isWS c = false := by
  intro c hc
  unfold freqBlock at hc
  rw [List.head?_append_of_ne_nil _ hfs.1] at hc
  exact plainNum_ws hfs c (head?_mem hc)

theorem stripChars_freqBlock (fs ds : List Char) (sgn : Char) (hfs : plainNum fs) :
    stripChars (freqBlock fs ds sgn) = freqBlock fs ds sgn := by
  refine stripChars_eq_self_ends _ (freqBlock_head hfs) ?_
  intro c hc
  rw [freqBlock_getLast] at hc
  injection hc with hc2
  rw [← hc2]
  rfl

theorem parseFreqPart_fmt (fs : List Char) (f : ℚ) (hfs : plainNum fs)
    (hf : parseFloat fs = some f) :
    parseFreqPart (fs ++ 'M' :: 'H' :: ['z']) = some f := by
  unfold parseFreqPart
  rw [stripChars_eq_self_ends _ (fun c hc => by
      rw [List.head?_append_of_ne_nil _ hfs.1] at hc
      exact plainNum_ws hfs c (head?_mem hc))
    (fun c hc => by
      rw [List.getLast?_append_of_ne_nil _ (by simp)] at hc
      injection hc with hc2
      rw [← hc2]
      rfl)]
  rw [rstripAny_append_all mhzChars fs ('M' :: 'H' :: ['z']) (by decide)]
  rw [rstripAny_eq_self_last mhzChars fs (fun c hc =>
    (plain_ne c (hfs.2 c (getLast?_mem hc))).2.2.2.2.2.2.2.2.1)]
  exact hf

theorem parseErrPart_plus (ds : List Char) (d : ℚ) (hds : plainNum ds)
    (hd : parseFloat ds = some d) :
    parseErrPart (ds ++ 'k' :: 'H' :: 'z' :: ')' :: ' ' :: 'p' :: 'o' :: 'w' ::
      'e' :: ['r']) = some d := by
  have s1 : stripChars (ds ++ 'k' :: 'H' :: 'z' :: ')' :: ' ' :: 'p' :: 'o' ::
      'w' :: 'e' :: ['r']) = ds ++ 'k' :: 'H' :: 'z' :: ')' :: ' ' :: 'p' ::
      'o' :: 'w' :: 'e' :: ['r'] := by
    refine stripChars_eq_self_ends _ (fun c hc => ?_) (fun c hc => ?_)
    · rw [List.head?_append_of_ne_nil _ hds.1] at hc
      exact plainNum_ws hds c (head?_mem hc)
    · rw [List.getLast?_append_of_ne_nil _ (by simp)] at hc
      injection hc with hc2
      rw [← hc2]
      rfl
  have s2 : rstripAny powChars (ds ++ 'k' :: 'H' :: 'z' :: ')' :: ' ' :: 'p' ::
      'o' :: 'w' :: 'e' :: ['r']) = ds ++ 'k' :: 'H' :: 'z' :: ')' :: [' '] := by
    rw [show ds ++ 'k' :: 'H' :: 'z' :: ')' :: ' ' :: 'p' :: 'o' :: 'w' :: 'e' ::
        ['r'] = (ds ++ 'k' :: 'H' :: 'z' :: ')' :: [' ']) ++
        'p' :: 'o' :: 'w' :: 'e' :: ['r'] from by simp]
    rw [rstripAny_append_all powChars _ _ (by decide)]
    refine rstripAny_eq_self_last powChars _ (fun c hc => ?_)
    rw [List.getLast?_append_of_ne_nil _ (by simp)] at hc
    injection hc with hc2
    rw [← hc2]
    decide
  have s3 : stripChars (ds ++ 'k' :: 'H' :: 'z' :: ')' :: [' ']) =
      ds ++ 'k' :: 'H' :: 'z' :: [')'] := by
    rw [show ds ++ 'k' :: 'H' :: 'z' :: ')' :: [' '] =
      (ds ++ 'k' :: 'H' :: 'z' :: [')']) ++ [' '] from by simp]
    refine stripChars_trailing_ws _ ' ' rfl (by simp) (fun c hc => ?_) (fun c hc => ?_)
    · rw [List.head?_append_of_ne_nil _ hds.1] at hc
      exact plainNum_ws hds c (head?_mem hc)
    · rw [List.getLast?_append_of_ne_nil _ (by simp)] at hc
      injection hc with hc2
      rw [← hc2]
      rfl
  have s4 : rstripAny khzChars (ds ++ 'k' :: 'H' :: 'z' :: [')']) = ds := by
    rw [rstripAny_append_all khzChars _ _ (by decide)]
    exact rstripAny_eq_self_last khzChars ds (fun c hc =>
      (plain_ne c (hds.2 c (getLast?_mem hc))).2.2.2.2.2.2.2.2.2.2)
  unfold parseErrPart
  rw [s1, s2, s3, s4]
  exact hd

theorem parseErrPart_minus (ds : List Char) (d : ℚ) (hds : plainNum ds)
    (hd : parseFloat ds = some d) :
    parseErrPart ('-' :: (ds ++ 'k' :: 'H' :: 'z' :: ')' :: ' ' :: 'p' :: 'o' ::
      'w' :: 'e' :: ['r'])) = some (-d) := by
  have s1 : stripChars ('-' :: (ds ++ 'k' :: 'H' :: 'z' :: ')' :: ' ' :: 'p' ::
      'o' :: 'w' :: 'e' :: ['r'])) = '-' :: (ds ++ 'k' :: 'H' :: 'z' :: ')' ::
      ' ' :: 'p' :: 'o' :: 'w' :: 'e' :: ['r']) := by
    refine stripChars_eq_self_ends _ (fun c hc => ?_) (fun c hc => ?_)
    · injection hc with hc2
      rw [← hc2]
      rfl
    · rw [show '-' :: (ds ++ 'k' :: 'H' :: 'z' :: ')' :: ' ' :: 'p' :: 'o' ::
          'w' :: 'e' :: ['r']) = ['-'] ++ (ds ++ 'k' :: 'H' :: 'z' :: ')' :: ' ' ::
          'p' :: 'o' :: 'w' :: 'e' :: ['r']) from rfl,
        List.getLast?_append_of_ne_nil _ (by simp),
        List.getLast?_append_of_ne_nil _ (by simp)] at hc
      injection hc with hc2
      rw [← hc2]
      rfl
  have s2 : rstripAny powChars ('-' :: (ds ++ 'k' :: 'H' :: 'z' :: ')' :: ' ' ::
      'p' :: 'o' :: 'w' :: 'e' :: ['r'])) =
      '-' :: (ds ++ 'k' :: 'H' :: 'z' :: ')' :: [' ']) := by
    rw [show '-' :: (ds ++ 'k' :: 'H' :: 'z' :: ')' :: ' ' :: 'p' :: 'o' :: 'w' ::
        'e' :: ['r']) = ('-' :: (ds ++ 'k' :: 'H' :: 'z' :: ')' :: [' '])) ++
        'p' :: 'o' :: 'w' :: 'e' :: ['r'] from by simp]
    rw [rstripAny_append_all powChars _ _ (by decide)]
    refine rstripAny_eq_self_last powChars _ (fun c hc => ?_)
    rw [show '-' :: (ds ++ 'k' :: 'H' :: 'z' :: ')' :: [' ']) =
        ['-'] ++ (ds ++ 'k' :: 'H' :: 'z' :: ')' :: [' ']) from rfl,
      List.getLast?_append_of_ne_nil _ (by simp),
      List.getLast?_append_of_ne_nil _ (by simp)] at hc
    injection hc with hc2
    rw [← hc2]
    decide
  have s3 : stripChars ('-' :: (ds ++ 'k' :: 'H' :: 'z' :: ')' :: [' '])) =
      '-' :: (ds ++ 'k' :: 'H' :: 'z' :: [')']) := by
    rw [show '-' :: (ds ++ 'k' :: 'H' :: 'z' :: ')' :: [' ']) =
      ('-' :: (ds ++ 'k' :: 'H' :: 'z' :: [')'])) ++ [' '] from by simp]
    refine stripChars_trailing_ws _ ' ' rfl (by simp) (fun c hc => ?_) (fun c hc => ?_)
    · injection hc with hc2
      rw [← hc2]
      rfl
    · rw [show '-' :: (ds ++ 'k' :: 'H' :: 'z' :: [')']) =
          ['-'] ++ (ds ++ 'k' :: 'H' :: 'z' :: [')']) from rfl,
        List.getLast?_append_of_ne_nil _ (by simp),
        List.getLast?_append_of_ne_nil _ (by simp)] at hc
      injection hc with hc2
      rw [← hc2]
      rfl
  have s4 : rstripAny khzChars ('-' :: (ds ++ 'k' :: 'H' :: 'z' :: [')'])) =
      '-' :: ds := by
    rw [show '-' :: (ds ++ 'k' :: 'H' :: 'z' :: [')']) =
      ('-' :: ds) ++ 'k' :: 'H' :: 'z' :: [')'] from by simp]
    rw [rstripAny_append_all khzChars _ _ (by decide)]
    refine rstripAny_eq_self_last khzChars ('-' :: ds) (fun c hc => ?_)
    rw [show '-' :: ds = ['-'] ++ ds from rfl,
      List.getLast?_append_of_ne_nil _ hds.1] at hc
    exact (plain_ne c (hds.2 c (getLast?_mem hc))).2.2.2.2.2.2.2.2.2.2
  have s5 : parseFloat ('-' :: ds) = some (-d) := by
    rw [parseFloat_neg_head ds (fun x hx => by
      rcases List.mem_cons.mp hx with rfl | hx2
      · rfl
      · exact plainNum_ws hds x hx2)]
    rw [← parseFloat_plainNum hds, hd]
    rfl
  unfold parseErrPart
  rw [s1, s2, s3, s4, s5]

theorem stripChars_devTail (ds : List Char) (hds : plainNum ds) :
    stripChars (ds ++ 'k' :: 'H' :: 'z' :: ')' :: ' ' :: 'p' :: 'o' :: 'w' ::
      'e' :: ['r']) = ds ++ 'k' :: 'H' :: 'z' :: ')' :: ' ' :: 'p' :: 'o' ::
      'w' :: 'e' :: ['r'] := by
  refine stripChars_eq_self_ends _ (fun c hc => ?_) (fun c hc => ?_)
  · rw [List.head?_append_of_ne_nil _ hds.1] at hc
    exact plainNum_ws hds c (head?_mem hc)
  · rw [List.getLast?_append_of_ne_nil _ (by simp)] at hc
    injection hc with hc2
    rw [← hc2]
    rfl

theorem freqBlock_ne_nil (fs ds : List Char) (sgn : Char) :
    freqBlock fs ds sgn ≠ [] := by
  unfold freqBlock
  simp

theorem splitSign_plus (fs ds : List Char) (hfs : plainNum fs) (hds : plainNum ds) :
    splitSign (freqBlock fs ds '+') =
      some (fs ++ 'M' :: 'H' :: ['z'],
        ds ++ 'k' :: 'H' :: 'z' :: ')' :: ' ' :: 'p' :: 'o' :: 'w' :: 'e' ::
          ['r']) := by
  have hmem : '+' ∈ freqBlock fs ds '+' := by
    unfold freqBlock
    simp
  have hcont : (freqBlock fs ds '+').contains '+' = true := List.elem_iff.mpr hmem
  have hsplit : splitOnChar '+' (freqBlock fs ds '+') =
      [fs ++ 'M' :: 'H' :: ['z'],
       ds ++ 'k' :: 'H' :: 'z' :: ')' :: ' ' :: 'p' :: 'o' :: 'w' :: 'e' ::
         ['r']] := by
    unfold freqBlock
    rw [show fs ++ 'M' :: 'H' :: 'z' :: '+' :: (ds ++ 'k' :: 'H' :: 'z' :: ')' ::
        ' ' :: 'p' :: 'o' :: 'w' :: 'e' :: ['r']) =
        (fs ++ 'M' :: 'H' :: ['z']) ++ '+' :: (ds ++ 'k' :: 'H' :: 'z' :: ')' ::
        ' ' :: 'p' :: 'o' :: 'w' :: 'e' :: ['r']) from by simp]
    rw [splitOnChar_append '+' _ _
      (nmem_append (plainNum_not_plus hfs) (by decide))]
    rw [splitOnChar_not_mem '+' _
      (nmem_append (plainNum_not_plus hds) (by decide))]
  unfold splitSign
  rw [if_pos hcont, stripChars_freqBlock fs ds '+' hfs, hsplit]

theorem splitSign_minus (fs ds : List Char) (hfs : plainNum fs) (hds : plainNum ds) :
    splitSign (freqBlock fs ds '-') =
      some (fs ++ 'M' :: 'H' :: ['z'],
        '-' :: (ds ++ 'k' :: 'H' :: 'z' :: ')' :: ' ' :: 'p' :: 'o' :: 'w' ::
          'e' :: ['r'])) := by
  have hnp : '+' ∉ freqBlock fs ds '-' :=
    nmem_freqBlock (plainNum_not_plus hfs) (plainNum_not_plus hds)
      (by decide) (by decide)
  have hncond : ¬ ((freqBlock fs ds '-').contains '+' = true) :=
    fun h => hnp (List.elem_iff.mp h)
  have hsplit : splitOnChar '-' (freqBlock fs ds '-') =
      [fs ++ 'M' :: 'H' :: ['z'],
       ds ++ 'k' :: 'H' :: 'z' :: ')' :: ' ' :: 'p' :: 'o' :: 'w' :: 'e' ::
         ['r']] := by
    unfold freqBlock
    rw [show fs ++ 'M' :: 'H' :: 'z' :: '-' :: (ds ++ 'k' :: 'H' :: 'z' :: ')' ::
        ' ' :: 'p' :: 'o' :: 'w' :: 'e' :: ['r']) =
        (fs ++ 'M' :: 'H' :: ['z']) ++ '-' :: (ds ++ 'k' :: 'H' :: 'z' :: ')' ::
        ' ' :: 'p' :: 'o' :: 'w' :: 'e' :: ['r']) from by simp]
    rw [splitOnChar_append '-' _ _
      (nmem_append (plainNum_not_minus hfs) (by decide))]
    rw [splitOnChar_not_mem '-' _
      (nmem_append (plainNum_not_minus hds) (by decide))]
  unfold splitSign
  rw [if_neg hncond, stripChars_freqBlock fs ds '-' hfs, hsplit]
  show some (fs ++ 'M' :: 'H' :: ['z'],
    '-' :: stripChars (ds ++ 'k' :: 'H' :: 'z' :: ')' :: ' ' :: 'p' :: 'o' ::
      'w' :: 'e' :: ['r'])) = _
  rw [stripChars_devTail ds hds]

theorem stripChars_chS (ns fs ds : List Char) (sgn : Char) (hns : ns ≠ [])
    (hnsd : ∀ c ∈ ns, c.isDigit = true) (_hfs : plainNum fs) :
    stripChars (' ' :: (ns ++ ' ' :: '(' :: freqBlock fs ds sgn)) =
      ns ++ ' ' :: '(' :: freqBlock fs ds sgn := by
  rw [stripChars_cons_ws ' ' _ rfl]
  refine stripChars_eq_self_ends _ (fun c hc => ?_) (fun c hc => ?_)
  · rw [List.head?_append_of_ne_nil _ hns] at hc
    exact (plain_ne c (Or.inl (hnsd c (head?_mem hc)))).2.2.1
  · rw [List.getLast?_append_of_ne_nil _ (by simp),
      show ' ' :: '(' :: freqBlock fs ds sgn = [' ', '('] ++ freqBlock fs ds sgn
        from rfl,
      List.getLast?_append_of_ne_nil _ (freqBlock_ne_nil fs ds sgn),
      freqBlock_getLast] at hc
    injection hc with hc2
    rw [← hc2]
    rfl

theorem splitParen_chS (ns fs ds : List Char) (sgn : Char)
    (hnsd : ∀ c ∈ ns, c.isDigit = true) (hfs : plainNum fs) (hds : plainNum ds)
    (hsgn : '(' ≠ sgn) :
    splitOnChar '(' (ns ++ ' ' :: '(' :: freqBlock fs ds sgn) =
      [ns ++ [' '], freqBlock fs ds sgn] := by
  have hns : '(' ∉ ns :=
    fun h => (plain_ne _ (Or.inl (hnsd _ h))).2.2.2.2.2.1 rfl
  rw [show ns ++ ' ' :: '(' :: freqBlock fs ds sgn =
      (ns ++ [' ']) ++ '(' :: freqBlock fs ds sgn from by simp]
  rw [splitOnChar_append '(' _ _ (nmem_append hns (by decide))]
  rw [splitOnChar_not_mem '(' _ (nmem_freqBlock (plainNum_not_lparen hfs)
    (plainNum_not_lparen hds) hsgn (by decide))]

theorem parseInt_ns (ns : List Char) (hne : ns ≠ [])
    (hns : ∀ c ∈ ns, c.isDigit = true) :
    parseInt (ns ++ [' ']) = some (digitsVal ns : Int) := by
  refine parseInt_strips _ ns ?_ hne hns
  refine stripChars_trailing_ws ns ' ' rfl hne (fun c hc => ?_) (fun c hc => ?_)
  · exact (plain_ne c (Or.inl (hns c (head?_mem hc)))).2.2.1
  · exact (plain_ne c (Or.inl (hns c (getLast?_mem hc)))).2.2.1

theorem stripChars_pS (ps : List Char) (hps : plainNum ps) :
    stripChars (' ' :: ps) = ps := by
  rw [stripChars_cons_ws ' ' _ rfl]
  exact plainNum_strip hps

theorem splitColon_scanLine (label ns fs ds ps : List Char) (sgn : Char)
    (hlab : ':' ∉ label) (hnsd : ∀ c ∈ ns, c.isDigit = true)
    (hfs : plainNum fs) (hds : plainNum ds) (hsgn : ':' ≠ sgn)
    (hps : plainNum ps) :
    splitOnChar ':' (scanLine label ns fs ds ps sgn) =
      [label, ' ' :: (ns ++ ' ' :: '(' :: freqBlock fs ds sgn), ' ' :: ps] := by
  have hns : ':' ∉ ns :=
    fun h => (plain_ne _ (Or.inl (hnsd _ h))).2.2.2.2.1 rfl
  have hmid : ':' ∉ ' ' :: (ns ++ ' ' :: '(' :: freqBlock fs ds sgn) :=
    nmem_cons (by decide) (nmem_append hns (nmem_cons (by decide)
      (nmem_cons (by decide) (nmem_freqBlock (plainNum_not_colon hfs)
        (plainNum_not_colon hds) hsgn (by decide)))))
  have hpsS : ':' ∉ ' ' :: ps :=
    nmem_cons (by decide) (plainNum_not_colon hps)
  unfold scanLine
  rw [splitOnChar_append ':' label _ hlab]
  rw [splitOnChar_append ':' _ _ hmid]
  rw [splitOnChar_not_mem ':' _ hpsS]

theorem scanLine_getLast (label ns fs ds ps : List Char) (sgn : Char)
    (hps : ps ≠ []) :
    (scanLine label ns fs ds ps sgn).getLast? = ps.getLast? := by
  unfold scanLine
  rw [List.getLast?_append_of_ne_nil _ (by simp)]
  rw [show ':' :: ((' ' :: (ns ++ ' ' :: '(' :: freqBlock fs ds sgn)) ++
      ':' :: ' ' :: ps) =
      [':'] ++ ((' ' :: (ns ++ ' ' :: '(' :: freqBlock fs ds sgn)) ++
      ':' :: ' ' :: ps) from rfl]
  rw [List.getLast?_append_of_ne_nil _ (by simp)]
  rw [List.getLast?_append_of_ne_nil _ (by simp)]
  rw [show ':' :: ' ' :: ps = [':', ' '] ++ ps from rfl]
  rw [List.getLast?_append_of_ne_nil _ hps]

theorem stripChars_scanLine (label ns fs ds ps : List Char) (sgn : Char)
    (hlabne : label ≠ []) (hlabws : ∀ c ∈ label, isWS c = false)
    (hps : plainNum ps) :
    stripChars (scanLine label ns fs ds ps sgn) =
      scanLine label ns fs ds ps sgn := by
  refine stripChars_eq_self_ends _ (fun c hc => ?_) (fun c hc => ?_)
  · unfold scanLine at hc
    rw [List.head?_append_of_ne_nil _ hlabne] at hc
    exact hlabws c (head?_mem hc)
  · rw [scanLine_getLast label ns fs ds ps sgn hps.1] at hc
    exact plainNum_ws hps c (getLast?_mem hc)

theorem parseScanLine_plus (band label ns fs ds ps : List Char) (f d p : ℚ)
    (hlab : ':' ∉ label) (hnsne : ns ≠ []) (hns : ∀ c ∈ ns, c.isDigit = true)
    (hfs : plainNum fs) (hds : plainNum ds) (hps : plainNum ps)
    (hf : parseFloat fs = some f) (hd : parseFloat ds = some d)
    (hp : parseFloat ps = some p) :
    parseScanLine band (scanLine label ns fs ds ps '+') =
      .ok ⟨band, (digitsVal ns : Int), f, d, p⟩ := by
  unfold parseScanLine
  rw [splitColon_scanLine label ns fs ds ps '+' hlab hns hfs hds (by decide) hps]
  simp only [stripChars_chS ns fs ds '+' hnsne hns hfs,
    splitParen_chS ns fs ds '+' hns hfs hds (by decide),
    parseInt_ns ns hnsne hns,
    splitSign_plus fs ds hfs hds,
    parseFreqPart_fmt fs f hfs hf,
    parseErrPart_plus ds d hds hd,
    stripChars_pS ps hps, hp]

theorem parseScanLine_minus (band label ns fs ds ps : List Char) (f d p : ℚ)
    (hlab : ':' ∉ label) (hnsne : ns ≠ []) (hns : ∀ c ∈ ns, c.isDigit = true)
    (hfs : plainNum fs) (hds : plainNum ds) (hps : plainNum ps)
    (hf : parseFloat fs = some f) (hd : parseFloat ds = some d)
    (hp : parseFloat ps = some p) :
    parseScanLine band (scanLine label ns fs ds ps '-') =
      .ok ⟨band, (digitsVal ns : Int), f, -d, p⟩ := by
  unfold parseScanLine
  rw [splitColon_scanLine label ns fs ds ps '-' hlab hns hfs hds (by decide) hps]
  simp only [stripChars_chS ns fs ds '-' hnsne hns hfs,
    splitParen_chS ns fs ds '-' hns hfs hds (by decide),
    parseInt_ns ns hnsne hns,
    splitSign_minus fs ds hfs hds,
    parseFreqPart_fmt fs f hfs hf,
    parseErrPart_minus ds d hds hd,
    stripChars_pS ps hps, hp]

theorem digit_toNat_facts :
    '0'.toNat = 48 ∧ '1'.toNat = 49 ∧ '2'.toNat = 50 ∧ '3'.toNat = 51 ∧
    '4'.toNat = 52 ∧ '5'.toNat = 53 ∧ '6'.toNat = 54 ∧ '7'.toNat = 55 ∧
    '8'.toNat = 56 ∧ '9'.toNat = 57 :=
  ⟨rfl, rfl, rfl, rfl, rfl, rfl, rfl, rfl, rfl, rfl⟩

/-- C8: the first line of the scan output is always discarded
(`listChannels` drops it before processing, whatever it holds), and every
data line of the corrected grammar `X: N (<freq>MHz<sgn><dev>kHz) power:
<pwr>` — the `')'` sits directly after the kHz value, before the word
`power` — parses to the record `(band, N, freq, dev, pwr)` whose stored
deviation is the parsed `<dev>` magnitude negated exactly when the sign
character between the MHz value and the kHz value is `'-'`, and kept
positive when it is `'+'`. -/
theorem listChannels_grammar :
    (∀ (band l0 rest : List Char), '\n' ∉ l0 →
      listChannels band (l0 ++ '\n' :: rest) =
        processLines band (splitOnChar '\n' rest)) ∧
    (∀ (band label ns fs ds ps : List Char) (f d p : ℚ),
      label ≠ [] → ':' ∉ label → (∀ c ∈ label, isWS c = false) →
      ns ≠ [] → (∀ c ∈ ns, c.isDigit = true) →
      plainNum fs → plainNum ds → plainNum ps →
      parseFloat fs = some f → parseFloat ds = some d →
      parseFloat ps = some p →
      parseScanLine band (stripChars (scanLine label ns fs ds ps '+')) =
        .ok ⟨band, (digitsVal ns : Int), f, d, p⟩ ∧
      parseScanLine band (stripChars (scanLine label ns fs ds ps '-')) =
        .ok ⟨band, (digitsVal ns : Int), f, -d, p⟩) := by
  constructor
  · intro band l0 rest h0
    unfold listChannels
    rw [splitOnChar_append '\n' l0 rest h0]
    rfl
  · intro band label ns fs ds ps f d p hlabne hlab hlabws hnsne hns hfs hds
      hps hf hd hp
    constructor
    · rw [stripChars_scanLine label ns fs ds ps '+' hlabne hlabws hps]
      exact parseScanLine_plus band label ns fs ds ps f d p hlab hnsne hns
        hfs hds hps hf hd hp
    · rw [stripChars_scanLine label ns fs ds ps '-' hlabne hlabws hps]
      exact parseScanLine_minus band label ns fs ds ps f d p hlab hnsne hns
        hfs hds hps hf hd hp

/-- Witness for C8 on the line `chan: 4 (935.8MHz<sgn>1.374kHz) power:
299028.46` for both signs, plus a first-line discard at a concrete banner. -/
theorem listChannels_grammar_witness :
    listChannels "GSM900".toList ("banner".toList ++ '\n' :: "rest".toList) =
      processLines "GSM900".toList (splitOnChar '\n' "rest".toList) ∧
    parseScanLine "GSM900".toList
        (stripChars (scanLine "chan".toList ['4'] "935.8".toList
          "1.374".toList "299028.46".toList '+')) =
      .ok ⟨"GSM900".toList, (4 : Int), 4679 / 5, 687 / 500, 14951423 / 50⟩ ∧
    parseScanLine "GSM900".toList
        (stripChars (scanLine "chan".toList ['4'] "935.8".toList
          "1.374".toList "299028.46".toList '-')) =
      .ok ⟨"GSM900".toList, (4 : Int), 4679 / 5, -(687 / 500),
        14951423 / 50⟩ :=
  ⟨listChannels_grammar.1 "GSM900".toList "banner".toList "rest".toList
    (by decide),
   (listChannels_grammar.2 "GSM900".toList "chan".toList ['4'] "935.8".toList
     "1.374".toList "299028.46".toList (4679 / 5) (687 / 500) (14951423 / 50)
     (by decide) (by decide) (by decide) (by decide) (by decide)
     ⟨by decide, by decide⟩ ⟨by decide, by decide⟩ ⟨by decide, by decide⟩
     (by
       show some ((digitsVal ['9', '3', '5'] : ℚ) + (digitsVal ['8'] : ℚ) /
         10 ^ (['8'] : List Char).length) = some (4679 / 5)
       norm_num [digitsVal, digitVal, digit_toNat_facts.2.2.2.2.2.2.2.2.2,
         digit_toNat_facts.2.2.2.1, digit_toNat_facts.2.2.2.2.2.1,
         digit_toNat_facts.2.2.2.2.2.2.2.2.1, digit_toNat_facts.1])
     (by
       show some ((digitsVal ['1'] : ℚ) + (digitsVal ['3', '7', '4'] : ℚ) /
         10 ^ (['3', '7', '4'] : List Char).length) = some (687 / 500)
       norm_num [digitsVal, digitVal, digit_toNat_facts.2.1,
         digit_toNat_facts.2.2.2.1, digit_toNat_facts.2.2.2.2.2.2.2.1,
         digit_toNat_facts.2.2.2.2.1, digit_toNat_facts.1])
     (by
       show some ((digitsVal ['2', '9', '9', '0', '2', '8'] : ℚ) +
         (digitsVal ['4', '6'] : ℚ) / 10 ^ (['4', '6'] : List Char).length) =
         some (14951423 / 50)
       norm_num [digitsVal, digitVal, digit_toNat_facts.2.2.1,
         digit_toNat_facts.2.2.2.2.2.2.2.2.2, digit_toNat_facts.1,
         digit_toNat_facts.2.2.2.2.2.2.2.2.1, digit_toNat_facts.2.2.2.2.1,
         digit_toNat_facts.2.2.2.2.2.2.1])).1,
   (listChannels_grammar.2 "GSM900".toList "chan".toList ['4'] "935.8".toList
     "1.374".toList "299028.46".toList (4679 / 5) (687 / 500) (14951423 / 50)
     (by decide) (by decide) (by decide) (by decide) (by decide)
     ⟨by decide, by decide⟩ ⟨by decide, by decide⟩ ⟨by decide, by decide⟩
     (by
       show some ((digitsVal ['9', '3', '5'] : ℚ) + (digitsVal ['8'] : ℚ) /
         10 ^ (['8'] : List Char).length) = some (4679 / 5)
       norm_num [digitsVal, digitVal, digit_toNat_facts.2.2.2.2.2.2.2.2.2,
         digit_toNat_facts.2.2.2.1, digit_toNat_facts.2.2.2.2.2.1,
         digit_toNat_facts.2.2.2.2.2.2.2.2.1, digit_toNat_facts.1])
     (by
       show some ((digitsVal ['1'] : ℚ) + (digitsVal ['3', '7', '4'] : ℚ) /
         10 ^ (['3', '7', '4'] : List Char).length) = some (687 / 500)
       norm_num [digitsVal, digitVal, digit_toNat_facts.2.1,
         digit_toNat_facts.2.2.2.1, digit_toNat_facts.2.2.2.2.2.2.2.1,
         digit_toNat_facts.2.2.2.2.1, digit_toNat_facts.1])
     (by
       show some ((digitsVal ['2', '9', '9', '0', '2', '8'] : ℚ) +
         (digitsVal ['4', '6'] : ℚ) / 10 ^ (['4', '6'] : List Char).length) =
         some (14951423 / 50)
       norm_num [digitsVal, digitVal, digit_toNat_facts.2.2.1,
         digit_toNat_facts.2.2.2.2.2.2.2.2.2, digit_toNat_facts.1,
         digit_toNat_facts.2.2.2.2.2.2.2.2.1, digit_toNat_facts.2.2.2.2.1,
         digit_toNat_facts.2.2.2.2.2.2.1])).2⟩

/-- C8 counterexample to the claim's literal grammar, which places the `')'`
after the word `power` (`...kHz power): ...`): on such a line the deviation
text that survives the strip chain is `1.374kHz power`, `float()` rejects it,
and the parse raises `ValueError` instead of producing a record. -/
theorem listChannels_grammar_counterexample :
    parseScanLine "GSM900".toList
      (stripChars "chan: 4 (935.8MHz+1.374kHz power): 299028.46".toList) =
      .error .valueError := by rfl
